import Mathlib

/-!
# Verification of the CrickCoder live codebase synchronization engine

Shallow embedding of the core synchronization engine of the repository:

* `src/core/indexing/ignore.py` — `.crickignore` rule loading,
* `src/core/indexing/indexer_engine.py` — `UniversalCodeIndexer`
  (content hashing, adaptive chunking, `upsert_file`, `delete_file`,
  `sync_project`, `_scan_disk_hashes`, `_get_db_state`),
* `src/core/runtime/watcher.py` — `get_file_hash`, `ProjectWatcher`
  (ignore filtering, debounce, event dispatch, `_run_move`),
* `src/core/runtime/monitor.py` — `CodebaseRegistry` (reference counting
  and idle cleanup).

Python strings are modelled as `List Char` (`Str`).  Time values
(`time.time()` results) are modelled as rationals.  External
collaborators (the LanceDB storage backend, the langchain splitter, the
SHA-256 primitive of `hashlib`) are modelled at their interface, as
noted at each definition.
-/

set_option autoImplicit false

namespace CrickCoder

/-- Python `str` contents are modelled as lists of characters. -/
abbrev Str := List Char

/-! ## Python string primitives used by the engine -/

/-- Model of `content.replace("\r\n", "\n")` (Python `str.replace` scans
left to right replacing non-overlapping occurrences; for the two-character
pattern `"\r\n"` this is exactly the following one-lookahead scan). -/
def replaceCrlfWithLf : List Char → List Char
  | [] => []
  | [c] => [c]
  | c :: d :: rest =>
    if c = '\x0d' ∧ d = '\x0a' then '\x0a' :: replaceCrlfWithLf rest
    else c :: replaceCrlfWithLf (d :: rest)

/-- Model of `content.replace("\r", "\n")`: for a single-character pattern
and single-character replacement, Python `str.replace` is a character map. -/
def replaceCrWithLf (s : List Char) : List Char :=
  s.map (fun c => if c = '\x0d' then '\x0a' else c)

/-- Python whitespace characters relevant to `str.strip()` /
`str.isspace()` (ASCII subset; the engine's inputs are code files). -/
def pyIsSpace (c : Char) : Bool :=
  c = ' ' ∨ c = '\t' ∨ c = '\x0a' ∨ c = '\x0d' ∨ c = '\x0b' ∨ c = '\x0c'

/-- `not content.strip()` — true iff the string strips to empty,
i.e. every character is whitespace. -/
def pyStripEmpty (s : Str) : Bool := s.all pyIsSpace

/-- Model of Python `str.strip()`: drop leading and trailing whitespace. -/
def pyStrip (s : Str) : Str :=
  ((s.dropWhile pyIsSpace).reverse.dropWhile pyIsSpace).reverse

/-- Model of Python `str.strip(ch)` for a single character argument:
drop leading and trailing occurrences of `ch`. -/
def pyStripChar (ch : Char) (s : Str) : Str :=
  ((s.dropWhile (· = ch)).reverse.dropWhile (· = ch)).reverse

/-- Model of Python `str.rstrip(ch)`: drop trailing occurrences of `ch`. -/
def pyRstripChar (ch : Char) (s : Str) : Str :=
  (s.reverse.dropWhile (· = ch)).reverse

/-- Model of Python `s.replace("\\", "/")`: single-character map. -/
def replaceBackslashWithSlash (s : Str) : Str :=
  s.map (fun c => if c = '\\' then '/' else c)

/-- Model of Python `str.split(sep)` for a single-character separator:
always returns at least one (possibly empty) segment. -/
def splitOnChar (sep : Char) : List Char → List (List Char)
  | [] => [[]]
  | c :: rest =>
    match splitOnChar sep rest with
    | [] => [[]]
    | h :: t => if c = sep then [] :: h :: t else (c :: h) :: t

/-- Model of Python `sep.join(parts)` restricted to how the spec's
"CRLF-line-ended form" and "LF-line-ended form" of a logical content are
built from its lines. -/
def joinSep (sep : Str) : List Str → Str
  | [] => []
  | [l] => l
  | l :: l2 :: ls => l ++ sep ++ joinSep sep (l2 :: ls)

/-- Last element of a list, with a default. -/
def getLastD {α : Type} (l : List α) (d : α) : α :=
  match l with
  | [] => d
  | [x] => x
  | _ :: y :: ys => getLastD (y :: ys) d

/-- Set-insertion on a list modelling a Python `set` (membership is the
only observation the engine makes on these sets). -/
def setInsert {α : Type} [DecidableEq α] (x : α) (l : List α) : List α :=
  if x ∈ l then l else l ++ [x]

/-- First-match association-list lookup, modelling Python `dict`
indexing (`dict` keys are unique, so first match is the match). -/
def lookupKV {α : Type} (p : Str) : List (Str × α) → Option α
  | [] => none
  | (q, v) :: rest => if q = p then some v else lookupKV p rest

/-- Association-list update modelling Python `dict` assignment
`d[k] = v`: replace the first binding of `k`, or append a new one. -/
def dictSet {α : Type} (k : Str) (v : α) : List (Str × α) → List (Str × α)
  | [] => [(k, v)]
  | (q, w) :: rest => if q = k then (k, v) :: rest else (q, w) :: dictSet k v rest

/-! ## `src/core/indexing/ignore.py` — `load_crickignore_rules` -/

/-- The three rule sets produced by `load_crickignore_rules`:
`(ignore_dirs, ignore_exts, ignore_patterns)`. Python `set`s are modelled
as lists with `setInsert`. -/
structure CrickRules where
  dirs : List Str
  exts : List Str
  pats : List Str
  deriving DecidableEq

/-- The empty rule set (missing `.crickignore` file). -/
def emptyRules : CrickRules := ⟨[], [], []⟩

/-- Processing of one line of `.crickignore` by `load_crickignore_rules`:
strip, skip blank lines and `#` comments, always add the kept line to
`ignore_patterns`, then classify into `ignore_dirs` / `ignore_exts`. -/
def loadLine (rs : CrickRules) (raw : Str) : CrickRules :=
  let line := pyStrip raw
  if line = [] ∨ line.head? = some '#' then rs
  else
    let rs := { rs with pats := setInsert line rs.pats }
    if line.getLast? = some '/' then
      { rs with dirs := setInsert (pyRstripChar '/' line) rs.dirs }
    else if ['*', '.'].isPrefixOf line then
      { rs with exts := setInsert (line.drop 1) rs.exts }
    else if '.' ∈ line ∧ line.head? ≠ some '.' then
      { rs with exts := setInsert ('.' :: getLastD (splitOnChar '.' line) []) rs.exts }
    else if line.head? = some '.' then
      { rs with dirs := setInsert line rs.dirs }
    else rs

/-- `load_crickignore_rules`, applied to the lines of the
`.crick/.crickignore` file (file-system access abstracted: the argument
is the list of lines read from the file; a missing file is the empty
list, giving `emptyRules`). -/
def loadCrickignoreRules (fileLines : List Str) : CrickRules :=
  fileLines.foldl loadLine emptyRules

/-! ## Content hashing

`UniversalCodeIndexer._compute_content_hash` and the watcher's
`get_file_hash` both normalize line endings with
`content.replace("\r\n", "\n").replace("\r", "\n")` and then take the
SHA-256 hex digest of the UTF-8 encoding.  `hashlib.sha256` is an
external primitive; it is modelled as an arbitrary injective
fingerprinting function, canonically the identity on the normalized
content (hash collisions are out of scope of the spec). -/

/-- Model of `hashlib.sha256(...).hexdigest()` on the already-normalized
content: an injective fingerprint, modelled as the identity. -/
def sha256Hex (s : Str) : Str := s

/-- Line-ending normalization as written in
`UniversalCodeIndexer._compute_content_hash`. -/
def indexerNormalizeEol (content : Str) : Str :=
  replaceCrWithLf (replaceCrlfWithLf content)

/-- `UniversalCodeIndexer._compute_content_hash` (the `content is None`
guard of the source cannot trigger on an actual string). -/
def computeContentHash (content : Str) : Str :=
  sha256Hex (indexerNormalizeEol content)

/-- Line-ending normalization as written in the watcher's
`get_file_hash` (textually the same two `replace` calls). -/
def watcherNormalizeEol (content : Str) : Str :=
  replaceCrWithLf (replaceCrlfWithLf content)

/-- The hash computed by the watcher's `get_file_hash` on a successfully
read content. -/
def watcherHashContent (content : Str) : Str :=
  sha256Hex (watcherNormalizeEol content)

/-! ## `get_file_hash` retry behaviour (watcher.py lines 14-40) -/

/-- Outcome of one attempt to open and read the file inside
`get_file_hash`'s retry loop. -/
inductive ReadOutcome where
  | ok (content : Str)
  | permissionDenied
  | osError
  | fileNotFound
  | otherError
  deriving DecidableEq

/-- The fixed retry delay of `get_file_hash` (`delay=0.2` seconds):
every sleep in the retry loop waits exactly this long. -/
def getFileHashDelay : ℚ := 1/5

/-- The retry loop of `get_file_hash`; `attempt` numbers the read
attempts.  Returns the hash result together with the number of
`time.sleep(delay)` calls performed.

Python semantics note: `FileNotFoundError` is a subclass of `OSError`,
and the clause `except (PermissionError, OSError)` precedes
`except FileNotFoundError`, so a missing file is caught by the first
clause and retried; the dedicated `FileNotFoundError` branch of the
source is unreachable.  `except Exception` (any other error) returns
`None` immediately. -/
def getFileHashLoop (readAttempt : Nat → ReadOutcome) :
    Nat → Nat → Option Str × Nat
  | 0, _ => (none, 0)
  | fuel + 1, attempt =>
    match readAttempt attempt with
    | .ok c => (some (watcherHashContent c), 0)
    | .permissionDenied | .osError | .fileNotFound =>
      let r := getFileHashLoop readAttempt fuel (attempt + 1)
      (r.1, r.2 + 1)
    | .otherError => (none, 0)

/-- `get_file_hash(file_path, retries=5, delay=0.2)`: the retry loop run
with its default bound of 5 attempts. -/
def getFileHash (readAttempt : Nat → ReadOutcome) : Option Str × Nat :=
  getFileHashLoop readAttempt 5 0

/-! ## `UniversalCodeIndexer` — chunking policy and storage model -/

/-- `self.SMALL_FILE_THRESHOLD = 30000`. -/
def SMALL_FILE_THRESHOLD : Nat := 30000

/-- The extensions of `self.LANG_MAP` (which language was selected does
not matter downstream: every language splitter is created with
`chunk_size=30000, chunk_overlap=2000`). -/
def LANG_EXTS : List Str :=
  [".py".toList, ".js".toList, ".jsx".toList, ".ts".toList, ".tsx".toList,
   ".java".toList, ".go".toList, ".rs".toList, ".cpp".toList, ".c".toList,
   ".php".toList, ".html".toList, ".css".toList]

/-- `os.path.splitext(p)[1]`: the extension of the last `/`-separated
component, from its last dot, provided some character of the base name
strictly before that dot is not itself a dot (CPython `genericpath`
semantics, so `".bashrc"` has no extension). -/
def splitextExt (p : Str) : Str :=
  let base := getLastD (splitOnChar '/' p) []
  let parts := splitOnChar '.' base
  if parts.length ≤ 1 then []
  else if (parts.dropLast).any (fun seg => seg ≠ []) then
    '.' :: getLastD parts []
  else []

/-- Fuel-driven splitting into windows of at most `chunkSize` characters
advancing by `step` characters (so consecutive windows overlap by
`chunkSize - step`). -/
def splitChunksLoop (chunkSize step : Nat) : Nat → List Char → List (List Char)
  | 0, s => [s]
  | fuel + 1, s =>
    if s.length ≤ chunkSize then [s]
    else s.take chunkSize :: splitChunksLoop chunkSize step fuel (s.drop step)

/-- Modelled from the spec: langchain's `RecursiveCharacterTextSplitter`
(an external dependency, its code is not under `src/`) performs
"language-aware boundary-preserving splitting with a fixed chunk size
and a nonzero overlap", falling back to character-level splitting, so a
text longer than the chunk size is split into at least two segments.
Modelled as fixed-size windows with the configured overlap. -/
def splitWithOverlap (chunkSize overlap : Nat) (s : Str) : List Str :=
  splitChunksLoop chunkSize (max 1 (chunkSize - overlap)) s.length s

/-- `UniversalCodeIndexer._get_splitter`: a language splitter
(`chunk_size=30000, chunk_overlap=2000`) when the lowercased extension
is in `LANG_MAP`, else `self.fallback_splitter`
(`chunk_size=4000, chunk_overlap=200`). -/
def getSplitterChunks (filename : Str) (content : Str) : List Str :=
  let ext := (splitextExt filename).map Char.toLower
  if ext ∈ LANG_EXTS then splitWithOverlap 30000 2000 content
  else splitWithOverlap 4000 200 content

/-- Step 5 of `upsert_file` (adaptive chunking): one whole-file document
below `SMALL_FILE_THRESHOLD`, split documents otherwise (the
`try/except` fallback to `fallback_splitter` is invisible here because
the splitter model does not raise). -/
def chunkDocs (relPath : Str) (content : Str) : List Str :=
  if content.length < SMALL_FILE_THRESHOLD then [content]
  else getSplitterChunks relPath content

/-- `UniversalCodeIndexer._is_binary_file`: a null byte within the first
1024 bytes (modelled on the decoded character content). -/
def isBinaryContent (content : Str) : Bool :=
  (content.take 1024).any (fun c => c = '\x00')

/-- `UniversalCodeIndexer._format_repomix_style`. -/
def formatRepomixStyle (relPath : Str) (content : Str) : Str :=
  "<file path=\"".toList ++ relPath ++ "\" extension=\"".toList ++
    splitextExt relPath ++ "\">\x0a".toList ++ content ++ "\x0a</file>".toList

/-- The metadata dictionary attached to every chunk by `upsert_file`. -/
structure ChunkMeta where
  path : Str
  hash : Str
  chunkIndex : Nat
  totalChunks : Nat
  isWholeFile : Bool
  lastModified : ℚ
  deriving DecidableEq

/-- One record handed to `knowledge.add_contents`: the chunk id
`"<rel_path>#<idx>"` (modelled as the pair), the repomix-wrapped text,
and the metadata. -/
structure ChunkRec where
  chunkId : Str × Nat
  text : Str
  meta : ChunkMeta
  deriving DecidableEq

/-- The storage backend's table contents: the list of live chunk
records.  `add_contents` appends (ids are fresh after the preceding
delete-by-path), `delete_by_metadata` filters. -/
abbrev Db := List ChunkRec

/-- The payload-building loop `for idx, doc in enumerate(docs)` of
`upsert_file`, starting at index `idx`. -/
def buildChunks (relPath : Str) (h : Str) (total : Nat) (t : ℚ) :
    Nat → List Str → List ChunkRec
  | _, [] => []
  | idx, d :: ds =>
    { chunkId := (relPath, idx)
      text := formatRepomixStyle relPath d
      meta :=
        { path := relPath, hash := h, chunkIndex := idx, totalChunks := total
          isWholeFile := total == 1, lastModified := t } } ::
      buildChunks relPath h total t (idx + 1) ds

/-- The complete chunk set `upsert_file` inserts for a (non-skipped)
file: adaptive chunking, shared whole-file hash, enumerated indices. -/
def upsertChunks (relPath : Str) (content : Str) (t : ℚ) : List ChunkRec :=
  let docs := chunkDocs relPath content
  buildChunks relPath (computeContentHash content) docs.length t 0 docs

/-- `UniversalCodeIndexer.delete_file`: remove every chunk whose
metadata `path` equals the relative path (`delete_by_metadata`); a
missing table / nothing to delete is a silent no-op (the filter of an
empty or unaffected list). -/
def deleteFile (db : Db) (relPath : Str) : Db :=
  db.filter (fun ch => ch.meta.path != relPath)

/-- `UniversalCodeIndexer.upsert_file` acting on the backend state.
`relPath` is the root-relative forward-slash path the source computes
with `os.path.relpath`; `content` is the text-mode read of the file
(the unreadable-file early return is not modelled: claims supply
readable files); `t` is the current time stored in `last_modified`.
Order as in the source: binary skip, empty/whitespace skip, hash +
chunking, delete-before-insert, batch insert. -/
def upsertFile (db : Db) (relPath : Str) (content : Str) (t : ℚ) : Db :=
  if isBinaryContent content then db
  else if pyStripEmpty content then db
  else deleteFile db relPath ++ upsertChunks relPath content t

/-! ## `sync_project` — full reconciliation -/

/-- Eligibility of an on-disk file for `_scan_disk_hashes`, expressed on
its root-relative path and content.  Mirrors the walk: directory
components that are in the `.crickignore` `ignore_dirs` or start with a
dot are pruned; file names starting with a dot are skipped; files ending
in an ignored extension are skipped; files matched by the `.gitignore`
`pathspec` (external matcher, taken as a predicate parameter) are
skipped; binary files are skipped. -/
def scanEligible (rules : CrickRules) (gitIgnored : Str → Bool)
    (relPath : Str) (content : Str) : Bool :=
  let parts := splitOnChar '/' relPath
  let filename := getLastD parts []
  !((parts.dropLast).any (fun d => d ∈ rules.dirs || d.head? == some '.')) &&
  !(filename.head? == some '.') &&
  !(rules.exts.any (fun ext => ext.isSuffixOf filename)) &&
  !(gitIgnored relPath) &&
  !(isBinaryContent content)

/-- `UniversalCodeIndexer._scan_disk_hashes`: the on-disk fingerprint
map.  The filesystem walk is abstracted to the list `disk` of
(root-relative path, content) pairs; eligible files are fingerprinted. -/
def scanDiskHashes (rules : CrickRules) (gitIgnored : Str → Bool)
    (disk : List (Str × Str)) : List (Str × Str) :=
  disk.filterMap (fun pc =>
    if scanEligible rules gitIgnored pc.1 pc.2 then
      some (pc.1, computeContentHash pc.2)
    else none)

/-- `UniversalCodeIndexer._get_db_state`: scan every stored row and keep
`state[path] = hash` for rows with truthy `path` and `hash` and
`chunk_index == 0` (later rows overwrite earlier ones, as for the
source's dict assignment). -/
def getDbState (db : Db) : List (Str × Str) :=
  db.foldl
    (fun st ch =>
      if ch.meta.path ≠ [] ∧ ch.meta.hash ≠ [] ∧ ch.meta.chunkIndex = 0 then
        dictSet ch.meta.path ch.meta.hash st
      else st)
    []

/-- `UniversalCodeIndexer.sync_project`: compute the disk and DB
fingerprint maps, queue upserts for new/changed paths and deletes for
vanished paths, then execute all deletes before all upserts (the
`create_hybrid_indexes` call afterwards is a backend-internal reindexing
with no effect on the stored chunk set). -/
def syncProject (rules : CrickRules) (gitIgnored : Str → Bool)
    (disk : List (Str × Str)) (db : Db) (t : ℚ) : Db :=
  let diskFiles := scanDiskHashes rules gitIgnored disk
  let dbState := getDbState db
  let toUpsert :=
    (diskFiles.filter (fun ph => !(lookupKV ph.1 dbState == some ph.2))).map Prod.fst
  let toDelete :=
    (dbState.filter (fun ps => lookupKV ps.1 diskFiles == none)).map Prod.fst
  let db1 := toDelete.foldl (fun d p => deleteFile d p) db
  toUpsert.foldl
    (fun d p =>
      match lookupKV p disk with
      | some c => upsertFile d p c t
      | none => d)
    db1

/-! ## `ProjectWatcher` (watcher.py) -/

/-- The always-ignored security directories hard-coded in
`ProjectWatcher._reload_ignore_rules`. -/
def securityIgnores : List Str :=
  [".git".toList, ".crick".toList, ".idea".toList, ".vscode".toList,
   "__pycache__".toList, "node_modules".toList, "venv".toList, ".venv".toList,
   "env".toList, "dist".toList, "build".toList, ".pytest_cache".toList,
   ".mypy_cache".toList, "lancedb_data".toList, "target".toList,
   "bin".toList, "obj".toList, ".history".toList]

/-- `ProjectWatcher._reload_ignore_rules`: the security set united with
the `.crickignore` directory rules, each cleaned with
`d.strip().replace("\\", "/").strip("/")` and dropped if empty. -/
def watcherIgnoreDirs (crick : CrickRules) : List Str :=
  crick.dirs.foldl
    (fun acc d =>
      let clean := pyStripChar '/' (replaceBackslashWithSlash (pyStrip d))
      if clean ≠ [] then setInsert clean acc else acc)
    securityIgnores

/-- `ProjectWatcher._should_ignore` on a root-relative path (the
`os.path.abspath`/`relpath` normalization of the source is abstracted:
event paths are given root-relative with `/` separators; the
out-of-root early-ignore case is not reachable for events delivered by
an observer scheduled on the root).  `ignoreDirs`/`ignoreExts` are the
watcher's current rule state.  The `.crickignore` rule-reload side
effect returns `True` like any other ignore, so the predicate is pure. -/
def shouldIgnore (ignoreDirs ignoreExts : List Str) (relPath : Str) : Bool :=
  let parts := splitOnChar '/' relPath
  let filename := getLastD parts []
  if "~".toList.isSuffixOf filename || ".tmp".toList.isSuffixOf filename ||
     ".#".toList.isPrefixOf filename || ".lock".toList.isSuffixOf filename then
    true
  else if filename = ".crickignore".toList then true
  else if (parts.dropLast).any
      (fun part => (part.head? == some '.' && part != ".".toList) ||
        part ∈ ignoreDirs) then
    true
  else if ignoreExts.any (fun ext => ext.isSuffixOf filename) then true
  else if filename.head? == some '.' ||
      filename = "thumbs.db".toList || filename = ".DS_Store".toList then
    true
  else false

/-- The type of a filesystem event (`event.event_type`). -/
inductive EType where
  | created
  | modified
  | deleted
  | moved
  deriving DecidableEq

/-- A watchdog filesystem event: directory flag, type, source path and
(for `moved`) destination path, both root-relative. -/
structure FsEvent where
  isDirectory : Bool
  etype : EType
  src : Str
  dest : Str
  deriving DecidableEq

/-- The background worker `on_any_event` spawns for an accepted event. -/
inductive Dispatch where
  | runUpsert (p : Str)
  | runDelete (p : Str)
  | runMove (src dest : Str)
  deriving DecidableEq

/-- Watcher handler state: the per-path `last_event_time` dictionary
(keyed, like the source, on the event's source path). -/
structure WState where
  lastEventTime : List (Str × ℚ)
  deriving DecidableEq

/-- The debounce cool-down window (`1.0` second). -/
def COOLDOWN : ℚ := 1

/-- `ProjectWatcher.on_any_event` at time `now`: directory events and
events with an ignored source path are filtered; an event for a path
seen less than `COOLDOWN` ago is dropped (without refreshing the stored
time); otherwise the time is recorded and one background worker is
spawned according to the event type. -/
def onAnyEvent (ignoreDirs ignoreExts : List Str) (st : WState)
    (ev : FsEvent) (now : ℚ) : WState × Option Dispatch :=
  if ev.isDirectory then (st, none)
  else if shouldIgnore ignoreDirs ignoreExts ev.src then (st, none)
  else
    let lastTime := (lookupKV ev.src st.lastEventTime).getD 0
    if now - lastTime < COOLDOWN then (st, none)
    else
      let st2 : WState := ⟨dictSet ev.src now st.lastEventTime⟩
      match ev.etype with
      | .moved => (st2, some (.runMove ev.src ev.dest))
      | .deleted => (st2, some (.runDelete ev.src))
      | .created => (st2, some (.runUpsert ev.src))
      | .modified => (st2, some (.runUpsert ev.src))

/-- The backend mutations a worker performs. -/
inductive DbOp where
  | del (p : Str)
  | ups (p : Str)
  deriving DecidableEq

/-- `ProjectWatcher._run_move`: re-check both endpoints against the
ignore rules; skip the delete half for an ignored source and the upsert
half for an ignored destination; do nothing when both are ignored. -/
def runMoveOps (ignoreDirs ignoreExts : List Str) (src dest : Str) : List DbOp :=
  let ignoreSrc := shouldIgnore ignoreDirs ignoreExts src
  let ignoreDest := shouldIgnore ignoreDirs ignoreExts dest
  if ignoreSrc && ignoreDest then []
  else
    (if !ignoreSrc then [DbOp.del src] else []) ++
    (if !ignoreDest then [DbOp.ups dest] else [])

/-- Number of upsert workers spawned by one `on_any_event` outcome. -/
def upsertDispatchCount (d : Option Dispatch) : Nat :=
  match d with
  | some (.runUpsert _) => 1
  | _ => 0

/-! ## `CodebaseRegistry` (monitor.py) -/

/-- `ActiveContext` (the indexer/observer handles carry no
registry-relevant state and are omitted): `ref_count` is a Python `int`
(it can in principle go negative), `last_used` a timestamp. -/
structure Ctx where
  refCount : Int
  lastUsed : ℚ
  deriving DecidableEq

/-- Registry state: the `root → ActiveContext` map and `_last_cleanup`.
`_cleanup_interval = 1800` seconds doubles as the idle threshold. -/
structure Registry where
  contexts : List (Str × Ctx)
  lastCleanup : ℚ
  deriving DecidableEq

/-- `self._cleanup_interval = 1800` (30 minutes). -/
def CLEANUP_INTERVAL : ℚ := 1800

/-- `CodebaseRegistry._cleanup_inactive` at time `now`: gated to run at
most once per interval; when it runs, every context idle for strictly
more than the interval is stopped and removed, regardless of its
reference count, and `_last_cleanup` is set to `now`. -/
def cleanupInactive (now : ℚ) (r : Registry) : Registry :=
  if now - r.lastCleanup < CLEANUP_INTERVAL then r
  else
    { contexts :=
        r.contexts.filter (fun pc => !(decide (now - pc.2.lastUsed > CLEANUP_INTERVAL)))
      lastCleanup := now }

/-- `CodebaseRegistry.ensure_initialized(root)` at time `now` (the root
is assumed to exist on disk; path normalization is abstracted, `root` is
the normalized key).  Runs the periodic cleanup first; then either
increments the reference count of the active context and refreshes
`last_used`, or creates a fresh context (`sync_project` + watcher start,
which do not touch the registry map) with `ref_count = 1`. -/
def ensureInitialized (root : Str) (now : ℚ) (r : Registry) : Registry :=
  let r := cleanupInactive now r
  match lookupKV root r.contexts with
  | some ctx =>
    { r with contexts :=
        dictSet root { ctx with refCount := ctx.refCount + 1, lastUsed := now } r.contexts }
  | none =>
    { r with contexts :=
        dictSet root { refCount := 1, lastUsed := now } r.contexts }

/-- `CodebaseRegistry.release(root)` at time `now`: decrement the
reference count and refresh `last_used`; releasing an inactive root is a
logged no-op; no teardown happens here even at count zero. -/
def releaseRoot (root : Str) (now : ℚ) (r : Registry) : Registry :=
  match lookupKV root r.contexts with
  | none => r
  | some ctx =>
    { r with contexts :=
        dictSet root { ctx with refCount := ctx.refCount - 1, lastUsed := now } r.contexts }

/-- `n`-fold application, for repeated `ensure_initialized`/`release`
calls. -/
def applyN {α : Type} (f : α → α) : Nat → α → α
  | 0, x => x
  | n + 1, x => applyN f n (f x)

/-- Erase the `last_modified` wall-clock field of a chunk record, to
compare chunk sets up to the insertion timestamp (the spec's idempotence
property speaks of count, text, path and index metadata). -/
def stripTime (ch : ChunkRec) : ChunkRec :=
  { ch with meta := { ch.meta with lastModified := 0 } }

/-- The list of context values bound to `root` in a registry map, in
order (an observation device: a well-formed `dict` has at most one). -/
def rootBindings (root : Str) (l : List (Str × Ctx)) : List Ctx :=
  (l.filter (fun pc => pc.1 == root)).map Prod.snd

/-- One step of reading off the stored fingerprint for path `p` while
scanning the backend rows in order: the same row condition as
`_get_db_state`, restricted to the rows for `p` (a later matching row
overwrites an earlier one, like the source's dict assignment). -/
def dbStep (p : Str) (acc : Option Str) (ch : ChunkRec) : Option Str :=
  if ch.meta.path ≠ [] ∧ ch.meta.hash ≠ [] ∧ ch.meta.chunkIndex = 0 ∧
      ch.meta.path = p then
    some ch.meta.hash
  else acc

/-- The stored fingerprint `_get_db_state` reports for a single path. -/
def dbStateAt (p : Str) (db : Db) : Option Str :=
  db.foldl (dbStep p) none

/-! ## Association-list helper lemmas -/

theorem lookupKV_dictSet_self {α : Type} (k : Str) (v : α) (l : List (Str × α)) :
    lookupKV k (dictSet k v l) = some v := by
  induction l with
  | nil => simp [dictSet, lookupKV]
  | cons hd tl ih =>
    obtain ⟨q, w⟩ := hd
    by_cases hq : q = k
    · simp [dictSet, hq, lookupKV]
    · simp [dictSet, hq, lookupKV, ih]

theorem lookupKV_dictSet_ne {α : Type} (p k : Str) (v : α) (l : List (Str × α))
    (h : p ≠ k) : lookupKV p (dictSet k v l) = lookupKV p l := by
  induction l with
  | nil => simp [dictSet, lookupKV, Ne.symm h]
  | cons hd tl ih =>
    obtain ⟨q, w⟩ := hd
    by_cases hq : q = k
    · subst hq
      simp [dictSet, lookupKV, Ne.symm h]
    · simp [dictSet, hq, lookupKV, ih]

theorem lookupKV_mem {α : Type} {p : Str} {v : α} {l : List (Str × α)}
    (h : lookupKV p l = some v) : (p, v) ∈ l := by
  induction l with
  | nil => simp [lookupKV] at h
  | cons hd tl ih =>
    obtain ⟨q, w⟩ := hd
    by_cases hq : q = p
    · subst hq
      simp [lookupKV] at h
      simp [h]
    · simp [lookupKV, hq] at h
      exact List.mem_cons_of_mem _ (ih h)

theorem lookupKV_eq_none_of_not_mem_keys {α : Type} {p : Str}
    {l : List (Str × α)} (h : p ∉ l.map Prod.fst) : lookupKV p l = none := by
  induction l with
  | nil => rfl
  | cons hd tl ih =>
    obtain ⟨q, w⟩ := hd
    simp only [List.map_cons, List.mem_cons] at h
    push_neg at h
    simp [lookupKV, Ne.symm h.1, ih h.2]

theorem mem_keys_of_lookupKV_eq_some {α : Type} {p : Str} {v : α}
    {l : List (Str × α)} (h : lookupKV p l = some v) : p ∈ l.map Prod.fst := by
  by_contra hn
  rw [lookupKV_eq_none_of_not_mem_keys hn] at h
  exact Option.noConfusion h

/-! ## C10 — whitespace-only upsert is a frame-preserving no-op -/

/-- C10: if `upsert_file` is called on a readable, non-binary file whose
content is empty or whitespace-only, it returns before the
delete-before-insert step, leaving the storage backend completely
unchanged — in particular, chunks previously stored for that path
remain. -/
theorem upsert_whitespace_noop (db : Db) (relPath : Str) (content : Str) (t : ℚ)
    (hb : isBinaryContent content = false) (hw : pyStripEmpty content = true) :
    upsertFile db relPath content t = db := by
  simp [upsertFile, hb, hw]

/-- Witness for C10: a whitespace-only content against a backend that
already holds a chunk for the same path; the stored chunk survives. -/
theorem upsert_whitespace_noop_witness :
    upsertFile
      [{ chunkId := ("a.py".toList, 0), text := "old".toList,
         meta := { path := "a.py".toList, hash := "h".toList, chunkIndex := 0,
                   totalChunks := 1, isWholeFile := true, lastModified := 5 } }]
      "a.py".toList " \t".toList 7 =
      [{ chunkId := ("a.py".toList, 0), text := "old".toList,
         meta := { path := "a.py".toList, hash := "h".toList, chunkIndex := 0,
                   totalChunks := 1, isWholeFile := true, lastModified := 5 } }] :=
  upsert_whitespace_noop _ _ _ _ (by decide) (by decide)

/-! ## C1 — `moved` events with an ignored source are dropped whole -/

/-- C1 (code bug): the claim — and `_run_move`'s own internal handling —
say a move from an ignored source to a non-ignored destination results
in an upsert of the destination.  But `on_any_event` filters the whole
event on `_should_ignore(event.src_path)` before dispatch, so for the
concrete moved event `draft.py.tmp -> draft.py` (the source matches the
temporary-file ignore rule, the destination is not ignored) no worker is
spawned at all and the destination is never indexed, even though
`_run_move` itself, had it run, would have produced exactly the
destination upsert. -/
theorem watcher_move_src_ignored_drops_event :
    onAnyEvent (watcherIgnoreDirs emptyRules) [] ⟨[]⟩
        ⟨false, .moved, "draft.py.tmp".toList, "draft.py".toList⟩ 100 =
      (⟨[]⟩, none) ∧
    runMoveOps (watcherIgnoreDirs emptyRules) []
        "draft.py.tmp".toList "draft.py".toList =
      [DbOp.ups "draft.py".toList] := by
  constructor
  · rfl
  · rfl

/-! ## C3 — `get_file_hash` retry behaviour -/

/-- C3 counterexample: a missing file is *not* distinguished from an
unreadable one — `get_file_hash` returns the same `(None, 5 sleeps)`
for a file that never exists as for one whose reads always fail with
`PermissionError` (because `FileNotFoundError` is an `OSError` and is
caught by the earlier `except (PermissionError, OSError)` clause, the
dedicated missing-file branch being dead code). -/
theorem get_file_hash_missing_eq_unreadable :
    getFileHash (fun _ => ReadOutcome.fileNotFound) =
      getFileHash (fun _ => ReadOutcome.permissionDenied) := rfl

theorem getFileHashLoop_all_fail (ra : Nat → ReadOutcome)
    (h : ∀ i, ra i = ReadOutcome.permissionDenied ∨ ra i = ReadOutcome.osError) :
    ∀ fuel start, getFileHashLoop ra fuel start = (none, fuel) := by
  intro fuel
  induction fuel with
  | zero => intro start; rfl
  | succ n ih =>
    intro start
    rcases h start with hs | hs <;> simp [getFileHashLoop, hs, ih]

/-- C3 (amended): a read failure (permission-denied or OS error) is
retried exactly 5 times, each retry preceded by one fixed
`time.sleep(0.2)`, before the file is treated as unreadable (`None`);
and a missing file takes the same retry path and yields the same
`(None, 5 sleeps)` result — it is not distinguished from "unreadable". -/
theorem get_file_hash_bounded_retries (ra : Nat → ReadOutcome)
    (h : ∀ i, ra i = ReadOutcome.permissionDenied ∨ ra i = ReadOutcome.osError) :
    getFileHash ra = (none, 5) ∧
    getFileHash (fun _ => ReadOutcome.fileNotFound) = (none, 5) :=
  ⟨getFileHashLoop_all_fail ra h 5 0, rfl⟩

/-- Witness for C3's amended theorem: reads that always fail with
`PermissionError`. -/
theorem get_file_hash_bounded_retries_witness :
    getFileHash (fun _ => ReadOutcome.permissionDenied) = (none, 5) :=
  (get_file_hash_bounded_retries _ (fun _ => Or.inl rfl)).1

/-! ## C6 — debounce -/

theorem upsertDispatchCount_le_one (d : Option Dispatch) :
    upsertDispatchCount d ≤ 1 := by
  rcases d with _ | d
  · exact Nat.zero_le 1
  · cases d <;> simp [upsertDispatchCount]

/-- C6: two `modified` events for the same path arriving within the
1-second cool-down window of each other produce at most one dispatched
upsert worker; moreover if the first event was dispatched at all, the
second is necessarily dropped by the per-path last-dispatched-time check
before any worker is spawned. -/
theorem watcher_debounce_at_most_one (ignoreDirs ignoreExts : List Str)
    (st : WState) (p : Str) (t1 t2 : ℚ) (h : t2 - t1 < COOLDOWN) :
    upsertDispatchCount (onAnyEvent ignoreDirs ignoreExts st ⟨false, .modified, p, p⟩ t1).2 +
      upsertDispatchCount (onAnyEvent ignoreDirs ignoreExts
        (onAnyEvent ignoreDirs ignoreExts st ⟨false, .modified, p, p⟩ t1).1
        ⟨false, .modified, p, p⟩ t2).2 ≤ 1 ∧
    ((onAnyEvent ignoreDirs ignoreExts st ⟨false, .modified, p, p⟩ t1).2.isSome →
      (onAnyEvent ignoreDirs ignoreExts
        (onAnyEvent ignoreDirs ignoreExts st ⟨false, .modified, p, p⟩ t1).1
        ⟨false, .modified, p, p⟩ t2).2 = none) := by
  by_cases hig : shouldIgnore ignoreDirs ignoreExts p
  · simp [onAnyEvent, hig, upsertDispatchCount, upsertDispatchCount_le_one]
  · by_cases hdb : t1 - (lookupKV p st.lastEventTime).getD 0 < COOLDOWN
    · constructor
      · calc upsertDispatchCount (onAnyEvent ignoreDirs ignoreExts st ⟨false, .modified, p, p⟩ t1).2 +
              upsertDispatchCount (onAnyEvent ignoreDirs ignoreExts
                (onAnyEvent ignoreDirs ignoreExts st ⟨false, .modified, p, p⟩ t1).1
                ⟨false, .modified, p, p⟩ t2).2 =
            upsertDispatchCount (onAnyEvent ignoreDirs ignoreExts st
                ⟨false, .modified, p, p⟩ t2).2 := by
              simp [onAnyEvent, hig, hdb, upsertDispatchCount]
          _ ≤ 1 := upsertDispatchCount_le_one _
      · intro hs
        simp [onAnyEvent, hig, hdb] at hs
    · have h1 : onAnyEvent ignoreDirs ignoreExts st ⟨false, .modified, p, p⟩ t1 =
          (⟨dictSet p t1 st.lastEventTime⟩, some (.runUpsert p)) := by
        simp [onAnyEvent, hig, hdb]
      have h2 : onAnyEvent ignoreDirs ignoreExts ⟨dictSet p t1 st.lastEventTime⟩
          ⟨false, .modified, p, p⟩ t2 = (⟨dictSet p t1 st.lastEventTime⟩, none) := by
        have hl : lookupKV p (dictSet p t1 st.lastEventTime) = some t1 :=
          lookupKV_dictSet_self p t1 st.lastEventTime
        simp [onAnyEvent, hig, hl, h]
      rw [h1]
      simp [h2, upsertDispatchCount]

/-- Witness for C6: a fresh watcher state, a plain source path, and two
events 0.4 seconds apart. -/
theorem watcher_debounce_at_most_one_witness :
    upsertDispatchCount (onAnyEvent (watcherIgnoreDirs emptyRules) [] ⟨[]⟩
        ⟨false, .modified, "a.py".toList, "a.py".toList⟩ 10).2 +
      upsertDispatchCount (onAnyEvent (watcherIgnoreDirs emptyRules) []
        (onAnyEvent (watcherIgnoreDirs emptyRules) [] ⟨[]⟩
          ⟨false, .modified, "a.py".toList, "a.py".toList⟩ 10).1
        ⟨false, .modified, "a.py".toList, "a.py".toList⟩ (52/5)).2 ≤ 1 :=
  (watcher_debounce_at_most_one _ _ _ _ 10 (52/5) (by norm_num [COOLDOWN])).1

/-! ## C8 — `.crickignore` line classification -/

/-- C8 counterexample: the line `foo.txt` has no trailing `/` and no
leading `*.`, so by the claim it should be stored verbatim as a raw
pattern *and only* as a raw pattern; but the loader additionally derives
the extension exclusion `.txt` from it (and it records every kept line,
of every category, as a raw pattern). -/
theorem crickignore_raw_only_counterexample :
    (pyStrip "foo.txt".toList).getLast? ≠ some '/' ∧
    ¬ ['*', '.'].isPrefixOf (pyStrip "foo.txt".toList) = true ∧
    (loadCrickignoreRules ["foo.txt".toList]).exts = [".txt".toList] ∧
    (loadCrickignoreRules ["foo.txt".toList]).pats = ["foo.txt".toList] := by
  refine ⟨by decide, by decide, by decide, by decide⟩

/-- C8 (amended): the loader skips blank and `#`-comment lines; every
other (stripped) line is stored verbatim as a raw pattern, and is
additionally classified by the first matching rule of: trailing `/` ⇒
directory exclusion (with trailing slashes stripped); leading `*.` ⇒
extension exclusion (the part after `*`); otherwise a line containing a
`.` and not starting with `.` ⇒ extension exclusion for its last
dot-suffix; otherwise a line starting with `.` ⇒ directory exclusion;
any remaining line is stored only as a raw pattern. -/
theorem crickignore_line_classification (rs : CrickRules) (raw : Str) :
    ((pyStrip raw = [] ∨ (pyStrip raw).head? = some '#') → loadLine rs raw = rs) ∧
    (¬ (pyStrip raw = [] ∨ (pyStrip raw).head? = some '#') →
      (loadLine rs raw).pats = setInsert (pyStrip raw) rs.pats ∧
      ((pyStrip raw).getLast? = some '/' →
        (loadLine rs raw).dirs = setInsert (pyRstripChar '/' (pyStrip raw)) rs.dirs ∧
        (loadLine rs raw).exts = rs.exts) ∧
      ((pyStrip raw).getLast? ≠ some '/' → ['*', '.'].isPrefixOf (pyStrip raw) = true →
        (loadLine rs raw).exts = setInsert ((pyStrip raw).drop 1) rs.exts ∧
        (loadLine rs raw).dirs = rs.dirs) ∧
      ((pyStrip raw).getLast? ≠ some '/' → ¬ ['*', '.'].isPrefixOf (pyStrip raw) = true →
        '.' ∈ pyStrip raw → (pyStrip raw).head? ≠ some '.' →
        (loadLine rs raw).exts =
          setInsert ('.' :: getLastD (splitOnChar '.' (pyStrip raw)) []) rs.exts ∧
        (loadLine rs raw).dirs = rs.dirs) ∧
      ((pyStrip raw).getLast? ≠ some '/' → ¬ ['*', '.'].isPrefixOf (pyStrip raw) = true →
        ¬ ('.' ∈ pyStrip raw ∧ (pyStrip raw).head? ≠ some '.') →
        (pyStrip raw).head? = some '.' →
        (loadLine rs raw).dirs = setInsert (pyStrip raw) rs.dirs ∧
        (loadLine rs raw).exts = rs.exts) ∧
      ((pyStrip raw).getLast? ≠ some '/' → ¬ ['*', '.'].isPrefixOf (pyStrip raw) = true →
        ¬ ('.' ∈ pyStrip raw ∧ (pyStrip raw).head? ≠ some '.') →
        (pyStrip raw).head? ≠ some '.' →
        (loadLine rs raw).dirs = rs.dirs ∧ (loadLine rs raw).exts = rs.exts)) := by
  constructor
  · intro hskip
    simp [loadLine, hskip]
  · intro hkeep
    refine ⟨?_, ?_, ?_, ?_, ?_, ?_⟩
    · simp only [loadLine, if_neg hkeep]
      split_ifs <;> rfl
    · intro hslash
      simp [loadLine, hkeep, hslash]
    · intro hns hstar
      simp [loadLine, hkeep, hns, hstar]
    · intro hns hstar hdot hnh
      simp [loadLine, hkeep, hns, hstar, hdot, hnh]
    · intro hns hstar hnc hh
      have hne : pyStrip raw ≠ [] := by
        push_neg at hkeep
        exact hkeep.1
      simp [loadLine, hkeep, hns, hstar, hnc, hh, hne]
    · intro hns hstar hnc hnh
      have hnd : '.' ∉ pyStrip raw := fun hdot => hnc ⟨hdot, hnh⟩
      simp [loadLine, hkeep, hns, hstar, hnd, hnh]

/-- Witness for C8's amended theorem: the directory line `build/` from
an empty rule state yields the directory exclusion `build`, no extension
exclusion, and the verbatim raw pattern `build/`. -/
theorem crickignore_line_classification_witness :
    (loadLine emptyRules "build/".toList).dirs = ["build".toList] ∧
    (loadLine emptyRules "build/".toList).exts = [] ∧
    (loadLine emptyRules "build/".toList).pats = ["build/".toList] := by
  have h := crickignore_line_classification emptyRules ("build/".toList)
  have hkeep : ¬ (pyStrip "build/".toList = [] ∨
      (pyStrip "build/".toList).head? = some '#') := by decide
  have hpats := (h.2 hkeep).1
  have hdir := (h.2 hkeep).2.1 (by decide)
  exact ⟨hdir.1.trans (by decide), hdir.2, hpats.trans (by decide)⟩

/-! ## C9 — idempotent upsert, single live chunk set per path -/

theorem buildChunks_path (rel h : Str) (total : Nat) (t : ℚ) :
    ∀ idx ds ch, ch ∈ buildChunks rel h total t idx ds → ch.meta.path = rel := by
  intro idx ds
  induction ds generalizing idx with
  | nil => intro ch hch; simp [buildChunks] at hch
  | cons d ds ih =>
    intro ch hch
    rcases (List.mem_cons).1 hch with hch | hch
    · subst hch; rfl
    · exact ih (idx + 1) ch hch

theorem map_stripTime_buildChunks (rel h : Str) (total : Nat) (t : ℚ) :
    ∀ idx ds, (buildChunks rel h total t idx ds).map stripTime =
      buildChunks rel h total 0 idx ds := by
  intro idx ds
  induction ds generalizing idx with
  | nil => rfl
  | cons d ds ih => simp [buildChunks, stripTime, ih (idx + 1)]

theorem deleteFile_buildChunks (rel h : Str) (total : Nat) (t : ℚ)
    (idx : Nat) (ds : List Str) :
    deleteFile (buildChunks rel h total t idx ds) rel = [] := by
  rw [deleteFile, List.filter_eq_nil_iff]
  intro ch hch
  simp [bne_iff_ne, buildChunks_path rel h total t idx ds ch hch]

theorem deleteFile_append (a b : Db) (rel : Str) :
    deleteFile (a ++ b) rel = deleteFile a rel ++ deleteFile b rel :=
  List.filter_append a b

theorem deleteFile_idem (db : Db) (rel : Str) :
    deleteFile (deleteFile db rel) rel = deleteFile db rel := by
  rw [deleteFile, deleteFile, List.filter_filter]
  congr 1
  funext ch
  exact Bool.and_self _

theorem upsertFile_filter_chunks (db : Db) (rel c : Str) (t : ℚ)
    (hb : isBinaryContent c = false) (hw : pyStripEmpty c = false) :
    (upsertFile db rel c t).filter (fun ch => ch.meta.path == rel) =
      upsertChunks rel c t := by
  simp only [upsertFile, hb, hw, Bool.false_eq_true, if_false]
  rw [List.filter_append]
  have h1 : (deleteFile db rel).filter (fun ch => ch.meta.path == rel) = [] := by
    rw [deleteFile, List.filter_filter, List.filter_eq_nil_iff]
    intro ch _
    cases hpr : (ch.meta.path == rel) <;> simp [bne, hpr]
  have h2 : (upsertChunks rel c t).filter (fun ch => ch.meta.path == rel) =
      upsertChunks rel c t := by
    rw [List.filter_eq_self]
    intro ch hch
    have := buildChunks_path rel (computeContentHash c)
      (chunkDocs rel c).length t 0 (chunkDocs rel c) ch hch
    simp [this]
  rw [h1, h2, List.nil_append]

/-- C9: calling `upsert_file` twice in a row with unchanged content
yields the same final chunk set as calling it once — same count,
per-chunk text, path and index metadata (only the `last_modified`
wall-clock field differs, which `stripTime` erases); and after an
upsert, the live chunks for the path are exactly the freshly inserted
set, because all existing chunks for the path are deleted before the
new ones are inserted. -/
theorem upsert_idempotent_single_set (db : Db) (rel c : Str) (t1 t2 : ℚ)
    (hb : isBinaryContent c = false) (hw : pyStripEmpty c = false) :
    (upsertFile (upsertFile db rel c t1) rel c t2).map stripTime =
      (upsertFile db rel c t1).map stripTime ∧
    (upsertFile db rel c t1).filter (fun ch => ch.meta.path == rel) =
      upsertChunks rel c t1 := by
  constructor
  · simp only [upsertFile, hb, hw, Bool.false_eq_true, if_false, upsertChunks]
    rw [deleteFile_append, deleteFile_idem, deleteFile_buildChunks]
    simp [map_stripTime_buildChunks]
  · exact upsertFile_filter_chunks db rel c t1 hb hw

/-- Witness for C9: a two-character Python file upserted twice over a
backend holding a stale chunk for the same path and a chunk for another
path. -/
theorem upsert_idempotent_single_set_witness :
    (upsertFile (upsertFile
        [{ chunkId := ("a.py".toList, 0), text := "stale".toList,
           meta := { path := "a.py".toList, hash := "old".toList, chunkIndex := 0,
                     totalChunks := 2, isWholeFile := false, lastModified := 1 } }]
        "a.py".toList "hi".toList 3) "a.py".toList "hi".toList 4).map stripTime =
      (upsertFile
        [{ chunkId := ("a.py".toList, 0), text := "stale".toList,
           meta := { path := "a.py".toList, hash := "old".toList, chunkIndex := 0,
                     totalChunks := 2, isWholeFile := false, lastModified := 1 } }]
        "a.py".toList "hi".toList 3).map stripTime :=
  (upsert_idempotent_single_set _ _ _ 3 4 (by decide) (by decide)).1

/-! ## C5 — `SMALL_FILE_THRESHOLD` boundary -/

theorem buildChunks_length (rel h : Str) (total : Nat) (t : ℚ) :
    ∀ idx ds, (buildChunks rel h total t idx ds).length = ds.length := by
  intro idx ds
  induction ds generalizing idx with
  | nil => rfl
  | cons d ds ih => simp [buildChunks, ih (idx + 1)]

theorem buildChunks_isWholeFile (rel h : Str) (total : Nat) (t : ℚ) :
    ∀ idx ds ch, ch ∈ buildChunks rel h total t idx ds →
      ch.meta.isWholeFile = (total == 1) := by
  intro idx ds
  induction ds generalizing idx with
  | nil => intro ch hch; simp [buildChunks] at hch
  | cons d ds ih =>
    intro ch hch
    rcases (List.mem_cons).1 hch with hch | hch
    · subst hch; rfl
    · exact ih (idx + 1) ch hch

theorem buildChunks_hash (rel h : Str) (total : Nat) (t : ℚ) :
    ∀ idx ds ch, ch ∈ buildChunks rel h total t idx ds → ch.meta.hash = h := by
  intro idx ds
  induction ds generalizing idx with
  | nil => intro ch hch; simp [buildChunks] at hch
  | cons d ds ih =>
    intro ch hch
    rcases (List.mem_cons).1 hch with hch | hch
    · subst hch; rfl
    · exact ih (idx + 1) ch hch

theorem splitChunksLoop_length_pos (cs step : Nat) :
    ∀ fuel s, 1 ≤ (splitChunksLoop cs step fuel s).length := by
  intro fuel s
  cases fuel with
  | zero => simp [splitChunksLoop]
  | succ n =>
    rw [splitChunksLoop]
    split <;> simp

theorem splitWithOverlap_ge_two (cs ov : Nat) (s : Str) (h : cs < s.length) :
    2 ≤ (splitWithOverlap cs ov s).length := by
  rw [splitWithOverlap]
  obtain ⟨m, hm⟩ : ∃ m, s.length = m + 1 := ⟨s.length - 1, by omega⟩
  rw [hm, splitChunksLoop, if_neg (by omega)]
  have := splitChunksLoop_length_pos cs (max 1 (cs - ov)) m
    (s.drop (max 1 (cs - ov)))
  simp only [List.length_cons]
  omega

theorem chunkDocs_small (rel c : Str) (h : c.length < SMALL_FILE_THRESHOLD) :
    chunkDocs rel c = [c] := by
  simp [chunkDocs, h]

theorem chunkDocs_large_ge_two (rel c : Str)
    (h : SMALL_FILE_THRESHOLD < c.length) : 2 ≤ (chunkDocs rel c).length := by
  rw [chunkDocs, if_neg (by omega), getSplitterChunks]
  split
  · exact splitWithOverlap_ge_two 30000 2000 c
      (by simpa [SMALL_FILE_THRESHOLD] using h)
  · exact splitWithOverlap_ge_two 4000 200 c
      (by simp [SMALL_FILE_THRESHOLD] at h; omega)

/-- C5: upserting a non-binary, non-whitespace-only file of exactly
`SMALL_FILE_THRESHOLD - 1` characters makes the live chunk set for its
path exactly one chunk, with `is_whole_file = true`; upserting one of
`SMALL_FILE_THRESHOLD + 1` characters yields at least two chunks, all
carrying the same whole-file fingerprint in their metadata. -/
theorem upsert_threshold_boundary (db : Db) (rel : Str) (t : ℚ) (c1 c2 : Str)
    (h1 : c1.length = SMALL_FILE_THRESHOLD - 1)
    (hb1 : isBinaryContent c1 = false) (hw1 : pyStripEmpty c1 = false)
    (h2 : c2.length = SMALL_FILE_THRESHOLD + 1)
    (hb2 : isBinaryContent c2 = false) (hw2 : pyStripEmpty c2 = false) :
    (upsertFile db rel c1 t).filter (fun ch => ch.meta.path == rel) =
      upsertChunks rel c1 t ∧
    (upsertChunks rel c1 t).length = 1 ∧
    (∀ ch ∈ upsertChunks rel c1 t, ch.meta.isWholeFile = true) ∧
    (upsertFile db rel c2 t).filter (fun ch => ch.meta.path == rel) =
      upsertChunks rel c2 t ∧
    2 ≤ (upsertChunks rel c2 t).length ∧
    (∀ ch ∈ upsertChunks rel c2 t, ch.meta.hash = computeContentHash c2) := by
  have hd1 : chunkDocs rel c1 = [c1] :=
    chunkDocs_small rel c1 (by rw [h1]; norm_num [SMALL_FILE_THRESHOLD])
  refine ⟨upsertFile_filter_chunks db rel c1 t hb1 hw1, ?_, ?_,
    upsertFile_filter_chunks db rel c2 t hb2 hw2, ?_, ?_⟩
  · rw [upsertChunks, buildChunks_length, hd1]
    rfl
  · intro ch hch
    rw [upsertChunks] at hch
    have := buildChunks_isWholeFile rel (computeContentHash c1)
      (chunkDocs rel c1).length t 0 (chunkDocs rel c1) ch hch
    rw [this, hd1]
    rfl
  · rw [upsertChunks, buildChunks_length]
    exact chunkDocs_large_ge_two rel c2 (by rw [h2]; omega)
  · intro ch hch
    rw [upsertChunks] at hch
    exact buildChunks_hash rel (computeContentHash c2)
      (chunkDocs rel c2).length t 0 (chunkDocs rel c2) ch hch

theorem any_replicate_eq {α : Type} (n : Nat) (a : α) (p : α → Bool) :
    (List.replicate n a).any p = (decide (n ≠ 0) && p a) := by
  induction n with
  | zero => simp
  | succ m ih =>
    rw [List.replicate_succ, List.any_cons, ih]
    cases hp : p a <;> simp [hp]

theorem all_replicate_eq {α : Type} (n : Nat) (a : α) (p : α → Bool) :
    (List.replicate n a).all p = (decide (n = 0) || p a) := by
  induction n with
  | zero => simp
  | succ m ih =>
    rw [List.replicate_succ, List.all_cons, ih]
    cases hp : p a <;> simp [hp]

theorem replicate_a_not_binary (n : Nat) :
    isBinaryContent (List.replicate n 'a') = false := by
  rw [isBinaryContent, List.take_replicate, any_replicate_eq]
  have : (decide ('a' = '\x00')) = false := rfl
  simp [this]

theorem replicate_a_not_ws (n : Nat) (hn : n ≠ 0) :
    pyStripEmpty (List.replicate n 'a') = false := by
  rw [pyStripEmpty, all_replicate_eq]
  have h1 : pyIsSpace 'a' = false := rfl
  simp [h1, hn]

/-- Witness for C5: the path `x.py` with contents of exactly 29 999 and
30 001 copies of `a`. -/
theorem upsert_threshold_boundary_witness :
    (upsertChunks "x.py".toList
        (List.replicate (SMALL_FILE_THRESHOLD - 1) 'a') 0).length = 1 ∧
    2 ≤ (upsertChunks "x.py".toList
        (List.replicate (SMALL_FILE_THRESHOLD + 1) 'a') 0).length := by
  have h := upsert_threshold_boundary [] "x.py".toList 0
    (List.replicate (SMALL_FILE_THRESHOLD - 1) 'a')
    (List.replicate (SMALL_FILE_THRESHOLD + 1) 'a')
    (by simp) (replicate_a_not_binary _)
    (replicate_a_not_ws _ (by norm_num [SMALL_FILE_THRESHOLD]))
    (by simp) (replicate_a_not_binary _)
    (replicate_a_not_ws _ (by norm_num [SMALL_FILE_THRESHOLD]))
  exact ⟨h.2.1, h.2.2.2.2.1⟩

/-! ## C4 — hash stability across line endings -/

theorem replaceCrlfWithLf_cons_ne (c : Char) (s : List Char) (hc : c ≠ '\x0d') :
    replaceCrlfWithLf (c :: s) = c :: replaceCrlfWithLf s := by
  cases s with
  | nil => rfl
  | cons d rest => simp [replaceCrlfWithLf, hc]

theorem replaceCrlfWithLf_id_of_no_cr (s : List Char) (h : '\x0d' ∉ s) :
    replaceCrlfWithLf s = s := by
  induction s with
  | nil => rfl
  | cons c rest ih =>
    have hc : c ≠ '\x0d' := by
      intro he
      exact h (he ▸ List.mem_cons_self c rest)
    rw [replaceCrlfWithLf_cons_ne c rest hc,
      ih (fun hm => h (List.mem_cons_of_mem c hm))]

theorem replaceCrlfWithLf_append_of_no_cr (s t : List Char) (h : '\x0d' ∉ s) :
    replaceCrlfWithLf (s ++ t) = s ++ replaceCrlfWithLf t := by
  induction s with
  | nil => rfl
  | cons c rest ih =>
    have hc : c ≠ '\x0d' := by
      intro he
      exact h (he ▸ List.mem_cons_self c rest)
    rw [List.cons_append, replaceCrlfWithLf_cons_ne c (rest ++ t) hc,
      ih (fun hm => h (List.mem_cons_of_mem c hm)), List.cons_append]

theorem replaceCrlfWithLf_sep (rest : List Char) :
    replaceCrlfWithLf ('\x0d' :: '\x0a' :: rest) =
      '\x0a' :: replaceCrlfWithLf rest := by
  simp [replaceCrlfWithLf]

theorem mem_joinSep {c : Char} (sep : Str) :
    ∀ ls : List Str, c ∈ joinSep sep ls → c ∈ sep ∨ ∃ l ∈ ls, c ∈ l := by
  intro ls
  induction ls with
  | nil => intro h; simp [joinSep] at h
  | cons l ls ih =>
    cases ls with
    | nil =>
      intro h
      exact Or.inr ⟨l, List.mem_cons_self l [], h⟩
    | cons l2 ls2 =>
      intro h
      rw [joinSep, List.append_assoc] at h
      rcases List.mem_append.1 h with h | h
      · exact Or.inr ⟨l, List.mem_cons_self l _, h⟩
      · rcases List.mem_append.1 h with h | h
        · exact Or.inl h
        · rcases ih h with h | ⟨l3, hl3, hc3⟩
          · exact Or.inl h
          · exact Or.inr ⟨l3, List.mem_cons_of_mem l hl3, hc3⟩

theorem replaceCrlfWithLf_joinCrlf (lines : List Str)
    (h : ∀ l ∈ lines, '\x0d' ∉ l) :
    replaceCrlfWithLf (joinSep ['\x0d', '\x0a'] lines) =
      joinSep ['\x0a'] lines := by
  induction lines with
  | nil => rfl
  | cons l ls ih =>
    cases ls with
    | nil =>
      exact replaceCrlfWithLf_id_of_no_cr l (h l (List.mem_cons_self l []))
    | cons l2 ls2 =>
      rw [joinSep, joinSep, List.append_assoc, List.append_assoc,
        replaceCrlfWithLf_append_of_no_cr l _ (h l (List.mem_cons_self l _))]
      have hsep : ['\x0d', '\x0a'] ++ joinSep ['\x0d', '\x0a'] (l2 :: ls2) =
          '\x0d' :: '\x0a' :: joinSep ['\x0d', '\x0a'] (l2 :: ls2) := rfl
      rw [hsep, replaceCrlfWithLf_sep,
        ih (fun l3 hl3 => h l3 (List.mem_cons_of_mem l hl3))]
      rfl

theorem no_cr_joinLf (lines : List Str) (h : ∀ l ∈ lines, '\x0d' ∉ l) :
    '\x0d' ∉ joinSep ['\x0a'] lines := by
  intro hmem
  rcases mem_joinSep ['\x0a'] lines hmem with hs | ⟨l, hl, hc⟩
  · simp at hs
  · exact h l hl hc

/-- C4: for content whose lines are CR-free, the content fingerprint of
the CRLF-line-ended form equals the fingerprint of the LF-line-ended
form of the same logical content (line endings are normalized to LF
before hashing), and the watcher's `get_file_hash` computes the same
fingerprint as the indexer's `_compute_content_hash` on identical
content. -/
theorem hash_stable_line_endings (lines : List Str)
    (h : ∀ l ∈ lines, '\x0d' ∉ l) :
    computeContentHash (joinSep ['\x0d', '\x0a'] lines) =
      computeContentHash (joinSep ['\x0a'] lines) ∧
    ∀ c : Str, watcherHashContent c = computeContentHash c := by
  constructor
  · show sha256Hex (replaceCrWithLf (replaceCrlfWithLf _)) =
      sha256Hex (replaceCrWithLf (replaceCrlfWithLf _))
    rw [replaceCrlfWithLf_joinCrlf lines h,
      replaceCrlfWithLf_id_of_no_cr _ (no_cr_joinLf lines h)]
  · intro c
    rfl

/-- Witness for C4: the logical two-line content `ab` / `cd` in both
renderings, plus the watcher/indexer agreement on `a\r\nb`. -/
theorem hash_stable_line_endings_witness :
    computeContentHash (joinSep ['\x0d', '\x0a'] ["ab".toList, "cd".toList]) =
      computeContentHash (joinSep ['\x0a'] ["ab".toList, "cd".toList]) ∧
    watcherHashContent "a\r\nb".toList = computeContentHash "a\r\nb".toList := by
  have h := hash_stable_line_endings ["ab".toList, "cd".toList] (by decide)
  exact ⟨h.1, h.2 _⟩

/-! ## C7 — registry reference counting and idle eviction -/

theorem rootBindings_dictSet (root : Str) (v : Ctx) (l : List (Str × Ctx)) :
    rootBindings root (dictSet root v l) = v :: (rootBindings root l).drop 1 := by
  induction l with
  | nil => simp [dictSet, rootBindings]
  | cons hd tl ih =>
    obtain ⟨q, w⟩ := hd
    by_cases hq : q = root
    · subst hq
      simp [dictSet, rootBindings]
    · simp only [dictSet, hq, if_false, rootBindings, List.filter_cons]
      have hqb : (q == root) = false := by simp [hq]
      simp only [hqb, Bool.false_eq_true, if_false]
      exact ih

theorem lookupKV_eq_head_rootBindings (root : Str) (l : List (Str × Ctx)) :
    lookupKV root l = (rootBindings root l).head? := by
  induction l with
  | nil => rfl
  | cons hd tl ih =>
    obtain ⟨q, w⟩ := hd
    by_cases hq : q = root
    · subst hq
      simp [lookupKV, rootBindings]
    · have hqb : (q == root) = false := by simp [hq]
      simp only [lookupKV, hq, if_false, rootBindings, List.filter_cons, hqb,
        Bool.false_eq_true]
      exact ih

theorem rootBindings_filter (root : Str) (pred : Str × Ctx → Bool)
    (l : List (Str × Ctx)) :
    rootBindings root (l.filter pred) =
      (rootBindings root l).filter (fun v => pred (root, v)) := by
  induction l with
  | nil => rfl
  | cons hd tl ih =>
    obtain ⟨q, w⟩ := hd
    by_cases hq : q = root
    · subst hq
      cases hp : pred (q, w)
      · simp [rootBindings, List.filter_cons, hp] at ih ⊢
        exact ih
      · simp [rootBindings, List.filter_cons, hp] at ih ⊢
        exact ih
    · have hqb : (q == root) = false := by simp [hq]
      have hrhs : rootBindings root ((q, w) :: tl) = rootBindings root tl := by
        simp [rootBindings, List.filter_cons, hqb]
      rw [hrhs]
      cases hp : pred (q, w)
      · rw [List.filter_cons, hp]
        simp only [Bool.false_eq_true, if_false]
        exact ih
      · rw [List.filter_cons, hp]
        simp only [if_true]
        have hskip : rootBindings root ((q, w) :: List.filter pred tl) =
            rootBindings root (List.filter pred tl) := by
          simp [rootBindings, List.filter_cons, hqb]
        rw [hskip]
        exact ih

theorem cleanup_rootBindings_fresh (root : Str) (t : ℚ) (r : Registry)
    (ctx : Ctx) (hl : ctx.lastUsed = t)
    (h : rootBindings root r.contexts = [ctx]) :
    rootBindings root (cleanupInactive t r).contexts = [ctx] := by
  rw [cleanupInactive]
  split
  · exact h
  · rw [rootBindings_filter, h]
    have : (t - ctx.lastUsed > CLEANUP_INTERVAL) = False := by
      rw [hl]
      norm_num [CLEANUP_INTERVAL]
    simp [this]

theorem cleanup_rootBindings_nil (root : Str) (t : ℚ) (r : Registry)
    (h : rootBindings root r.contexts = []) :
    rootBindings root (cleanupInactive t r).contexts = [] := by
  rw [cleanupInactive]
  split
  · exact h
  · rw [rootBindings_filter, h]
    rfl

theorem ensure_rootBindings_first (root : Str) (t : ℚ) (r : Registry)
    (h : rootBindings root r.contexts = []) :
    rootBindings root (ensureInitialized root t r).contexts = [⟨1, t⟩] := by
  rw [ensureInitialized]
  have hc := cleanup_rootBindings_nil root t r h
  have hl : lookupKV root (cleanupInactive t r).contexts = none := by
    rw [lookupKV_eq_head_rootBindings, hc]
    rfl
  rw [hl]
  simp only [rootBindings_dictSet, hc]
  rfl

theorem ensure_rootBindings_step (root : Str) (t : ℚ) (r : Registry) (m : Int)
    (h : rootBindings root r.contexts = [⟨m, t⟩]) :
    rootBindings root (ensureInitialized root t r).contexts = [⟨m + 1, t⟩] := by
  rw [ensureInitialized]
  have hc := cleanup_rootBindings_fresh root t r ⟨m, t⟩ rfl h
  have hl : lookupKV root (cleanupInactive t r).contexts = some ⟨m, t⟩ := by
    rw [lookupKV_eq_head_rootBindings, hc]
    rfl
  rw [hl]
  simp only [rootBindings_dictSet, hc]
  rfl

theorem release_rootBindings_step (root : Str) (t : ℚ) (r : Registry)
    (m : Int) (u : ℚ) (h : rootBindings root r.contexts = [⟨m, u⟩]) :
    rootBindings root (releaseRoot root t r).contexts = [⟨m - 1, t⟩] := by
  rw [releaseRoot]
  have hl : lookupKV root r.contexts = some ⟨m, u⟩ := by
    rw [lookupKV_eq_head_rootBindings, h]
    rfl
  rw [hl]
  simp only [rootBindings_dictSet, h]
  rfl

theorem ensure_rootBindings_applyN (root : Str) (t : ℚ) :
    ∀ (k : Nat) (r : Registry) (m : Int),
      rootBindings root r.contexts = [⟨m, t⟩] →
      rootBindings root ((applyN (ensureInitialized root t) k r).contexts) =
        [⟨m + k, t⟩] := by
  intro k
  induction k with
  | zero =>
    intro r m h
    simpa using h
  | succ j ih =>
    intro r m h
    rw [applyN]
    have hs := ensure_rootBindings_step root t r m h
    have := ih (ensureInitialized root t r) (m + 1) hs
    rw [this]
    have harith : m + 1 + (j : Int) = m + ((j : Int) + 1) := by ring
    rw [harith]
    push_cast
    ring_nf

theorem release_rootBindings_applyN (root : Str) (t : ℚ) :
    ∀ (k : Nat) (r : Registry) (m : Int),
      rootBindings root r.contexts = [⟨m, t⟩] →
      rootBindings root ((applyN (releaseRoot root t) k r).contexts) =
        [⟨m - k, t⟩] := by
  intro k
  induction k with
  | zero =>
    intro r m h
    simpa using h
  | succ j ih =>
    intro r m h
    rw [applyN]
    have hs := release_rootBindings_step root t r m t h
    have := ih (releaseRoot root t r) (m - 1) hs
    rw [this]
    have harith : m - 1 - (j : Int) = m - ((j : Int) + 1) := by ring
    rw [harith]
    push_cast
    ring_nf

/-- C7: starting from a registry where `root` is inactive, calling
`ensure_initialized(root)` `N ≥ 1` times and then `release(root)`
`N - 1` times (all in quick succession, modelled at one time `t`) leaves
the project's context in the map with `ref_count = 1`; the `N`-th
release leaves it in the map with `ref_count = 0` (no immediate
teardown); a subsequent idle sweep keeps it while it has been idle for
at most the 30-minute threshold, and evicts it (only) once it has been
idle for more than the threshold (and the sweep's own rate gate has
expired). -/
theorem registry_refcount_lifecycle (r0 : Registry) (root : Str) (N : Nat)
    (t : ℚ) (hN : 1 ≤ N) (h0 : lookupKV root r0.contexts = none) :
    let afterEnsures := applyN (ensureInitialized root t) N r0
    let afterReleases := applyN (releaseRoot root t) (N - 1) afterEnsures
    let afterFinal := releaseRoot root t afterReleases
    lookupKV root afterReleases.contexts = some ⟨1, t⟩ ∧
    lookupKV root afterFinal.contexts = some ⟨0, t⟩ ∧
    (∀ t2 : ℚ, t2 - t ≤ CLEANUP_INTERVAL →
      lookupKV root (cleanupInactive t2 afterFinal).contexts = some ⟨0, t⟩) ∧
    (∀ t2 : ℚ, CLEANUP_INTERVAL < t2 - t →
      ¬ t2 - afterFinal.lastCleanup < CLEANUP_INTERVAL →
      lookupKV root (cleanupInactive t2 afterFinal).contexts = none) := by
  intro afterEnsures afterReleases afterFinal
  have hb0 : rootBindings root r0.contexts = [] := by
    rw [lookupKV_eq_head_rootBindings] at h0
    exact List.head?_eq_none_iff.1 h0
  obtain ⟨M, rfl⟩ : ∃ M, N = M + 1 := ⟨N - 1, by omega⟩
  have hens : rootBindings root afterEnsures.contexts = [⟨1 + M, t⟩] := by
    show rootBindings root
      ((applyN (ensureInitialized root t) (M + 1) r0).contexts) = _
    rw [applyN]
    exact ensure_rootBindings_applyN root t M (ensureInitialized root t r0) 1
      (ensure_rootBindings_first root t r0 hb0)
  have hrel : rootBindings root afterReleases.contexts = [⟨1, t⟩] := by
    show rootBindings root
      ((applyN (releaseRoot root t) (M + 1 - 1) afterEnsures).contexts) = _
    have := release_rootBindings_applyN root t (M + 1 - 1) afterEnsures
      (1 + M) hens
    rw [this]
    have harith : (1 : Int) + M - (M + 1 - 1 : Nat) = 1 := by
      push_cast
      ring
    rw [harith]
  have hfin : rootBindings root afterFinal.contexts = [⟨0, t⟩] := by
    have := release_rootBindings_step root t afterReleases 1 t hrel
    simpa using this
  refine ⟨?_, ?_, ?_, ?_⟩
  · rw [lookupKV_eq_head_rootBindings, hrel]
    rfl
  · rw [lookupKV_eq_head_rootBindings, hfin]
    rfl
  · intro t2 ht2
    have hc : rootBindings root (cleanupInactive t2 afterFinal).contexts =
        [⟨0, t⟩] := by
      rw [cleanupInactive]
      split
      · exact hfin
      · rw [rootBindings_filter, hfin]
        have : (t2 - Ctx.lastUsed ⟨0, t⟩ > CLEANUP_INTERVAL) = False := by
          simp only [eq_iff_iff, iff_false, not_lt]
          exact ht2
        simp [this]
    rw [lookupKV_eq_head_rootBindings, hc]
    rfl
  · intro t2 ht2 hgate
    have hc : rootBindings root (cleanupInactive t2 afterFinal).contexts = [] := by
      rw [cleanupInactive, if_neg hgate, rootBindings_filter, hfin]
      have : (t2 - Ctx.lastUsed ⟨0, t⟩ > CLEANUP_INTERVAL) = True := by
        simp only [eq_iff_iff, iff_true]
        exact ht2
      simp [this]
    rw [lookupKV_eq_head_rootBindings, hc]
    rfl

theorem releaseRoot_lastCleanup (root : Str) (t : ℚ) (r : Registry) :
    (releaseRoot root t r).lastCleanup = r.lastCleanup := by
  rw [releaseRoot]
  cases lookupKV root r.contexts <;> rfl

theorem ensure_lastCleanup (root : Str) (t : ℚ) (r : Registry) :
    (ensureInitialized root t r).lastCleanup =
      (cleanupInactive t r).lastCleanup := by
  rw [ensureInitialized]
  cases lookupKV root (cleanupInactive t r).contexts <;> rfl

theorem cleanup_lastCleanup_of_lt (now : ℚ) (r : Registry)
    (h : now - r.lastCleanup < CLEANUP_INTERVAL) :
    (cleanupInactive now r).lastCleanup = r.lastCleanup := by
  rw [cleanupInactive, if_pos h]

/-- Witness for C7: two activations and one release at time 0 leave
`ref_count = 1`; the second release leaves the context in the map with
`ref_count = 0`; an idle sweep at time 2000 (idle > 1800 s) evicts it. -/
theorem registry_refcount_lifecycle_witness :
    lookupKV "proj".toList
      (applyN (releaseRoot "proj".toList 0) 1
        (applyN (ensureInitialized "proj".toList 0) 2 ⟨[], 0⟩)).contexts =
      some ⟨1, 0⟩ ∧
    lookupKV "proj".toList
      (cleanupInactive 2000 (releaseRoot "proj".toList 0
        (applyN (releaseRoot "proj".toList 0) 1
          (applyN (ensureInitialized "proj".toList 0) 2 ⟨[], 0⟩)))).contexts =
      none := by
  obtain ⟨h1, h2, h3, h4⟩ :=
    registry_refcount_lifecycle ⟨[], 0⟩ "proj".toList 2 0 (by norm_num) rfl
  refine ⟨h1, h4 2000 (by norm_num [CLEANUP_INTERVAL]) ?_⟩
  have e1 : (ensureInitialized "proj".toList 0 (⟨[], 0⟩ : Registry)).lastCleanup
      = 0 := by
    rw [ensure_lastCleanup, cleanup_lastCleanup_of_lt]
    norm_num [CLEANUP_INTERVAL]
  have e2 : (ensureInitialized "proj".toList 0
      (ensureInitialized "proj".toList 0 (⟨[], 0⟩ : Registry))).lastCleanup
      = 0 := by
    rw [ensure_lastCleanup, cleanup_lastCleanup_of_lt]
    rw [e1]
    rw [e1]
    norm_num [CLEANUP_INTERVAL]
  have hunf : applyN (ensureInitialized "proj".toList 0) 2
      (⟨[], 0⟩ : Registry) =
      ensureInitialized "proj".toList 0
        (ensureInitialized "proj".toList 0 (⟨[], 0⟩ : Registry)) := rfl
  have hlc : (releaseRoot "proj".toList 0
      (applyN (releaseRoot "proj".toList 0) 1
        (applyN (ensureInitialized "proj".toList 0) 2
          (⟨[], 0⟩ : Registry)))).lastCleanup = 0 := by
    rw [releaseRoot_lastCleanup]
    show (applyN (releaseRoot "proj".toList 0) 1
      (applyN (ensureInitialized "proj".toList 0) 2
        (⟨[], 0⟩ : Registry))).lastCleanup = 0
    have hunf2 : applyN (releaseRoot "proj".toList 0) 1
        (applyN (ensureInitialized "proj".toList 0) 2 (⟨[], 0⟩ : Registry)) =
        releaseRoot "proj".toList 0
          (applyN (ensureInitialized "proj".toList 0) 2 (⟨[], 0⟩ : Registry)) :=
      rfl
    rw [hunf2, releaseRoot_lastCleanup, hunf, e2]
  rw [hlc]
  norm_num [CLEANUP_INTERVAL]

/-! ## C2 — reconciliation convergence of `sync_project` -/

theorem getDbState_foldl_aux (p : Str) :
    ∀ (db : Db) (st : List (Str × Str)),
      lookupKV p (db.foldl
        (fun st ch =>
          if ch.meta.path ≠ [] ∧ ch.meta.hash ≠ [] ∧ ch.meta.chunkIndex = 0 then
            dictSet ch.meta.path ch.meta.hash st
          else st) st) =
      db.foldl (dbStep p) (lookupKV p st) := by
  intro db
  induction db with
  | nil => intro st; rfl
  | cons ch rest ih =>
    intro st
    rw [List.foldl_cons, List.foldl_cons, ih]
    congr 1
    by_cases ht : ch.meta.path ≠ [] ∧ ch.meta.hash ≠ [] ∧ ch.meta.chunkIndex = 0
    · rw [if_pos ht]
      by_cases hp : ch.meta.path = p
      · rw [hp, lookupKV_dictSet_self, dbStep, if_pos ⟨ht.1, ht.2.1, ht.2.2, hp⟩]
      · rw [lookupKV_dictSet_ne p ch.meta.path ch.meta.hash st
          (fun he => hp he.symm), dbStep, if_neg (fun hc => hp hc.2.2.2)]
    · rw [if_neg ht, dbStep,
        if_neg (fun hc => ht ⟨hc.1, hc.2.1, hc.2.2.1⟩)]

theorem lookupKV_getDbState (p : Str) (db : Db) :
    lookupKV p (getDbState db) = dbStateAt p db := by
  rw [getDbState, dbStateAt, getDbState_foldl_aux]
  rfl

theorem dbStep_frame (p : Str) :
    ∀ (l : Db) (acc : Option Str), (∀ ch ∈ l, ch.meta.path ≠ p) →
      l.foldl (dbStep p) acc = acc := by
  intro l
  induction l with
  | nil => intro acc _; rfl
  | cons ch rest ih =>
    intro acc h
    rw [List.foldl_cons, dbStep,
      if_neg (fun hc => h ch (List.mem_cons_self ch rest) hc.2.2.2)]
    exact ih acc (fun ch2 h2 => h ch2 (List.mem_cons_of_mem ch h2))

theorem dbStateAt_deleteFile_self (p : Str) (db : Db) :
    dbStateAt p (deleteFile db p) = none := by
  rw [dbStateAt]
  apply dbStep_frame
  intro ch hch
  have := List.of_mem_filter hch
  simpa [bne_iff_ne] using this

theorem foldl_dbStep_deleteFile_ne (p q : Str) (hpq : q ≠ p) :
    ∀ (db : Db) (acc : Option Str),
      (deleteFile db q).foldl (dbStep p) acc = db.foldl (dbStep p) acc := by
  intro db
  induction db with
  | nil => intro acc; rfl
  | cons ch rest ih =>
    intro acc
    by_cases hq : ch.meta.path = q
    · have hb : (ch.meta.path != q) = false := by simp [hq]
      rw [deleteFile, List.filter_cons, hb]
      simp only [Bool.false_eq_true, if_false]
      rw [List.foldl_cons, dbStep,
        if_neg (fun hc => hpq ((hq ▸ hc.2.2.2 : q = p)))]
      exact ih acc
    · have hb : (ch.meta.path != q) = true := by simp [hq]
      rw [deleteFile, List.filter_cons, hb]
      simp only [if_true]
      rw [List.foldl_cons, List.foldl_cons]
      exact ih _

theorem dbStateAt_deleteFile_ne (p q : Str) (db : Db) (hpq : q ≠ p) :
    dbStateAt p (deleteFile db q) = dbStateAt p db :=
  foldl_dbStep_deleteFile_ne p q hpq db none

theorem buildChunks_foldl_pos (p rel h : Str) (total : Nat) (t : ℚ) :
    ∀ (ds : List Str) (idx : Nat) (acc : Option Str), 0 < idx →
      (buildChunks rel h total t idx ds).foldl (dbStep p) acc = acc := by
  intro ds
  induction ds with
  | nil => intro idx acc _; rfl
  | cons d rest ih =>
    intro idx acc hidx
    have hnz : ¬ idx = 0 := by omega
    rw [buildChunks, List.foldl_cons, dbStep, if_neg (fun hc => hnz hc.2.2.1)]
    exact ih (idx + 1) acc (by omega)

theorem splitWithOverlap_ne_nil (cs ov : Nat) (s : Str) :
    splitWithOverlap cs ov s ≠ [] := by
  rw [splitWithOverlap]
  intro hnil
  have := splitChunksLoop_length_pos cs (max 1 (cs - ov)) s.length s
  rw [hnil] at this
  simp at this

theorem chunkDocs_ne_nil (rel c : Str) : chunkDocs rel c ≠ [] := by
  rw [chunkDocs]
  split
  · simp
  · rw [getSplitterChunks]
    split
    · exact splitWithOverlap_ne_nil 30000 2000 c
    · exact splitWithOverlap_ne_nil 4000 200 c

theorem computeContentHash_ne_nil (c : Str) (hw : pyStripEmpty c = false) :
    computeContentHash c ≠ [] := by
  have hc : c ≠ [] := by
    intro he
    rw [he] at hw
    exact Bool.noConfusion hw
  have h1 : replaceCrlfWithLf c ≠ [] := by
    cases c with
    | nil => exact absurd rfl hc
    | cons a rest =>
      cases rest with
      | nil => simp [replaceCrlfWithLf]
      | cons b rest2 =>
        rw [replaceCrlfWithLf]
        split <;> simp
  show sha256Hex (replaceCrWithLf (replaceCrlfWithLf c)) ≠ []
  rw [sha256Hex, replaceCrWithLf]
  simpa using h1

theorem upsertChunks_foldl (p c : Str) (t : ℚ) (acc : Option Str)
    (hp : p ≠ []) (hh : computeContentHash c ≠ []) :
    (upsertChunks p c t).foldl (dbStep p) acc =
      some (computeContentHash c) := by
  rw [upsertChunks]
  obtain ⟨d, ds, hds⟩ : ∃ d ds, chunkDocs p c = d :: ds := by
    cases hcd : chunkDocs p c with
    | nil => exact absurd hcd (chunkDocs_ne_nil p c)
    | cons d ds => exact ⟨d, ds, rfl⟩
  rw [hds, buildChunks, List.foldl_cons, dbStep, if_pos ⟨hp, hh, rfl, rfl⟩]
  exact buildChunks_foldl_pos p p (computeContentHash c)
    (d :: ds).length t ds 1 _ (by omega)

theorem upsertChunks_paths (rel c : Str) (t : ℚ) :
    ∀ ch ∈ upsertChunks rel c t, ch.meta.path = rel := by
  intro ch hch
  rw [upsertChunks] at hch
  exact buildChunks_path rel (computeContentHash c)
    (chunkDocs rel c).length t 0 (chunkDocs rel c) ch hch

theorem dbStateAt_upsertFile_ne (p q c : Str) (t : ℚ) (db : Db) (hpq : q ≠ p) :
    dbStateAt p (upsertFile db q c t) = dbStateAt p db := by
  rw [upsertFile]
  split
  · rfl
  · split
    · rfl
    · rw [dbStateAt, List.foldl_append]
      rw [dbStep_frame p (upsertChunks q c t) _
        (fun ch hch => by rw [upsertChunks_paths q c t ch hch]; exact hpq)]
      exact foldl_dbStep_deleteFile_ne p q hpq db none

theorem dbStateAt_upsertFile_self (p c : Str) (t : ℚ) (db : Db)
    (hb : isBinaryContent c = false) (hw : pyStripEmpty c = false)
    (hp : p ≠ []) :
    dbStateAt p (upsertFile db p c t) = some (computeContentHash c) := by
  rw [upsertFile, hb]
  simp only [Bool.false_eq_true, if_false]
  rw [hw]
  simp only [Bool.false_eq_true, if_false]
  rw [dbStateAt, List.foldl_append]
  have hdel : (deleteFile db p).foldl (dbStep p) none = none :=
    dbStateAt_deleteFile_self p db
  rw [hdel]
  exact upsertChunks_foldl p c t none hp (computeContentHash_ne_nil c hw)

theorem lookupKV_eq_of_mem_nodup {α : Type} {p : Str} {v : α}
    {l : List (Str × α)} (hnd : (l.map Prod.fst).Nodup) (hm : (p, v) ∈ l) :
    lookupKV p l = some v := by
  induction l with
  | nil => simp at hm
  | cons hd tl ih =>
    obtain ⟨q, w⟩ := hd
    rw [List.map_cons, List.nodup_cons] at hnd
    rcases (List.mem_cons).1 hm with hm | hm
    · injection hm with h1 h2
      rw [lookupKV, if_pos h1.symm, h2]
    · have hq : q ≠ p := by
        intro he
        subst he
        exact hnd.1 (List.mem_map.2 ⟨(q, v), hm, rfl⟩)
      rw [lookupKV, if_neg hq]
      exact ih hnd.2 hm

theorem exists_lookupKV_of_mem_keys {α : Type} {p : Str} {l : List (Str × α)}
    (h : p ∈ l.map Prod.fst) : ∃ v, lookupKV p l = some v := by
  induction l with
  | nil => simp at h
  | cons hd tl ih =>
    obtain ⟨q, w⟩ := hd
    by_cases hq : q = p
    · exact ⟨w, by rw [lookupKV, if_pos hq]⟩
    · rw [List.map_cons, List.mem_cons] at h
      rcases h with h | h
      · exact absurd h.symm hq
      · obtain ⟨v, hv⟩ := ih h
        exact ⟨v, by rw [lookupKV, if_neg hq]; exact hv⟩

theorem scanEligible_not_binary (rules : CrickRules) (g : Str → Bool)
    (p c : Str) (h : scanEligible rules g p c = true) :
    isBinaryContent c = false := by
  rw [scanEligible] at h
  simp only [Bool.and_eq_true, Bool.not_eq_true'] at h
  exact h.2

theorem scanDiskHashes_cons (rules : CrickRules) (g : Str → Bool) (q c : Str)
    (tl : List (Str × Str)) :
    scanDiskHashes rules g ((q, c) :: tl) =
      if scanEligible rules g q c = true then
        (q, computeContentHash c) :: scanDiskHashes rules g tl
      else scanDiskHashes rules g tl := by
  by_cases he : scanEligible rules g q c = true
  · simp [scanDiskHashes, List.filterMap_cons, he]
  · simp [scanDiskHashes, List.filterMap_cons, he]

theorem lookupKV_scan_none (rules : CrickRules) (g : Str → Bool) (p : Str) :
    ∀ disk : List (Str × Str), lookupKV p disk = none →
      lookupKV p (scanDiskHashes rules g disk) = none := by
  intro disk
  induction disk with
  | nil => intro _; rfl
  | cons hd tl ih =>
    obtain ⟨q, c⟩ := hd
    intro h
    rw [lookupKV] at h
    by_cases hq : q = p
    · rw [if_pos hq] at h
      exact Option.noConfusion h
    · rw [if_neg hq] at h
      rw [scanDiskHashes_cons]
      by_cases he : scanEligible rules g q c = true
      · rw [if_pos he, lookupKV, if_neg hq]
        exact ih h
      · rw [if_neg he]
        exact ih h

theorem lookupKV_scan_some (rules : CrickRules) (g : Str → Bool) :
    ∀ (disk : List (Str × Str)) (p h : Str),
      (disk.map Prod.fst).Nodup →
      lookupKV p (scanDiskHashes rules g disk) = some h →
      ∃ c, lookupKV p disk = some c ∧ scanEligible rules g p c = true ∧
        h = computeContentHash c := by
  intro disk
  induction disk with
  | nil =>
    intro p h _ hl
    exact Option.noConfusion hl
  | cons hd tl ih =>
    obtain ⟨q, c⟩ := hd
    intro p h hnd hl
    rw [List.map_cons, List.nodup_cons] at hnd
    rw [scanDiskHashes_cons] at hl
    by_cases he : scanEligible rules g q c = true
    · rw [if_pos he] at hl
      rw [lookupKV] at hl
      by_cases hq : q = p
      · rw [if_pos hq] at hl
        injection hl with hl
        subst hq
        exact ⟨c, by rw [lookupKV, if_pos rfl], he, hl.symm⟩
      · rw [if_neg hq] at hl
        obtain ⟨c2, hl2, he2, hh2⟩ := ih p h hnd.2 hl
        exact ⟨c2, by rw [lookupKV, if_neg hq]; exact hl2, he2, hh2⟩
    · rw [if_neg he] at hl
      by_cases hq : q = p
      · subst hq
        have hnone : lookupKV q tl = none := by
          cases ho : lookupKV q tl with
          | none => rfl
          | some v =>
            exact absurd (List.mem_map.2 ⟨(q, v), lookupKV_mem ho, rfl⟩) hnd.1
        rw [lookupKV_scan_none rules g q tl hnone] at hl
        exact Option.noConfusion hl
      · obtain ⟨c2, hl2, he2, hh2⟩ := ih p h hnd.2 hl
        exact ⟨c2, by rw [lookupKV, if_neg hq]; exact hl2, he2, hh2⟩

theorem mem_keys_scan (rules : CrickRules) (g : Str → Bool) (p : Str) :
    ∀ disk : List (Str × Str),
      p ∈ (scanDiskHashes rules g disk).map Prod.fst →
        p ∈ disk.map Prod.fst := by
  intro disk
  induction disk with
  | nil => intro h; simp [scanDiskHashes] at h
  | cons hd tl ih =>
    obtain ⟨q, c⟩ := hd
    intro h
    rw [scanDiskHashes_cons] at h
    rw [List.map_cons]
    by_cases he : scanEligible rules g q c = true
    · rw [if_pos he, List.map_cons, List.mem_cons] at h
      rcases h with h | h
      · exact List.mem_cons.2 (Or.inl h)
      · exact List.mem_cons.2 (Or.inr (ih h))
    · rw [if_neg he] at h
      exact List.mem_cons.2 (Or.inr (ih h))

theorem scan_keys_nodup (rules : CrickRules) (g : Str → Bool) :
    ∀ disk : List (Str × Str), (disk.map Prod.fst).Nodup →
      ((scanDiskHashes rules g disk).map Prod.fst).Nodup := by
  intro disk
  induction disk with
  | nil => intro _; exact List.nodup_nil
  | cons hd tl ih =>
    obtain ⟨q, c⟩ := hd
    intro hnd
    rw [List.map_cons, List.nodup_cons] at hnd
    rw [scanDiskHashes_cons]
    by_cases he : scanEligible rules g q c = true
    · rw [if_pos he, List.map_cons, List.nodup_cons]
      exact ⟨fun hm => hnd.1 (mem_keys_scan rules g q tl hm), ih hnd.2⟩
    · rw [if_neg he]
      exact ih hnd.2

theorem foldl_delete_not_mem (p : Str) :
    ∀ (L : List Str) (db : Db), p ∉ L →
      dbStateAt p (L.foldl (fun d q => deleteFile d q) db) = dbStateAt p db := by
  intro L
  induction L with
  | nil => intro db _; rfl
  | cons q L ih =>
    intro db hp
    rw [List.mem_cons] at hp
    push_neg at hp
    rw [List.foldl_cons, ih (deleteFile db q) hp.2,
      dbStateAt_deleteFile_ne p q db (fun he => hp.1 he.symm)]

theorem dbStateAt_delete_none (p q : Str) (db : Db)
    (h : dbStateAt p db = none) : dbStateAt p (deleteFile db q) = none := by
  by_cases hq : q = p
  · subst hq
    exact dbStateAt_deleteFile_self q db
  · rw [dbStateAt_deleteFile_ne p q db hq]
    exact h

theorem foldl_delete_none (p : Str) :
    ∀ (L : List Str) (db : Db), dbStateAt p db = none →
      dbStateAt p (L.foldl (fun d q => deleteFile d q) db) = none := by
  intro L
  induction L with
  | nil => intro db h; exact h
  | cons q L ih =>
    intro db h
    rw [List.foldl_cons]
    exact ih (deleteFile db q) (dbStateAt_delete_none p q db h)

theorem foldl_delete_mem (p : Str) :
    ∀ (L : List Str) (db : Db), p ∈ L →
      dbStateAt p (L.foldl (fun d q => deleteFile d q) db) = none := by
  intro L
  induction L with
  | nil => intro db h; simp at h
  | cons q L ih =>
    intro db h
    rw [List.foldl_cons]
    by_cases hq : q = p
    · subst hq
      exact foldl_delete_none q L (deleteFile db q)
        (dbStateAt_deleteFile_self q db)
    · rcases (List.mem_cons).1 h with h | h
      · exact absurd h.symm hq
      · exact ih (deleteFile db q) h

theorem foldl_upsert_not_mem (disk : List (Str × Str)) (t : ℚ) (p : Str) :
    ∀ (L : List Str) (db : Db), p ∉ L →
      dbStateAt p (L.foldl
        (fun d q =>
          match lookupKV q disk with
          | some c => upsertFile d q c t
          | none => d) db) = dbStateAt p db := by
  intro L
  induction L with
  | nil => intro db _; rfl
  | cons q L ih =>
    intro db hp
    rw [List.mem_cons] at hp
    push_neg at hp
    rw [List.foldl_cons, ih _ hp.2]
    cases hlq : lookupKV q disk with
    | none => simp [hlq]
    | some c =>
      simp only [hlq]
      exact dbStateAt_upsertFile_ne p q c t db (fun he => hp.1 he.symm)

theorem foldl_upsert_mem (disk : List (Str × Str)) (t : ℚ) (p c : Str)
    (hc : lookupKV p disk = some c) (hb : isBinaryContent c = false)
    (hw : pyStripEmpty c = false) (hp : p ≠ []) :
    ∀ (L : List Str) (db : Db), L.Nodup → p ∈ L →
      dbStateAt p (L.foldl
        (fun d q =>
          match lookupKV q disk with
          | some c2 => upsertFile d q c2 t
          | none => d) db) = some (computeContentHash c) := by
  intro L
  induction L with
  | nil => intro db _ h; simp at h
  | cons q L ih =>
    intro db hnd hm
    rw [List.nodup_cons] at hnd
    rw [List.foldl_cons]
    by_cases hq : q = p
    · subst hq
      rw [foldl_upsert_not_mem disk t q L _ hnd.1]
      simp only [hc]
      exact dbStateAt_upsertFile_self q c t db hb hw hp
    · rcases (List.mem_cons).1 hm with hm | hm
      · exact absurd hm.symm hq
      · exact ih _ hnd.2 hm

/-- C2 (amended): provided every file the disk scan deems eligible has
non-whitespace content, `sync_project` makes the stored fingerprint map
(read from chunk-index-0 records) exactly equal the on-disk fingerprint
map.  (Without that proviso the claim fails: `upsert_file` silently
skips empty/whitespace-only files, see the counterexample.) -/
theorem sync_project_converges (rules : CrickRules) (gitIg : Str → Bool)
    (disk : List (Str × Str)) (db : Db) (t : ℚ)
    (hnd : (disk.map Prod.fst).Nodup)
    (hnp : ∀ pc ∈ disk, pc.1 ≠ ([] : Str))
    (hws : ∀ pc ∈ disk, scanEligible rules gitIg pc.1 pc.2 = true →
      pyStripEmpty pc.2 = false) :
    ∀ p, lookupKV p (getDbState (syncProject rules gitIg disk db t)) =
      lookupKV p (scanDiskHashes rules gitIg disk) := by
  intro p
  rw [lookupKV_getDbState]
  simp only [syncProject]
  have hndD : ((scanDiskHashes rules gitIg disk).map Prod.fst).Nodup :=
    scan_keys_nodup rules gitIg disk hnd
  cases hscan : lookupKV p (scanDiskHashes rules gitIg disk) with
  | some h =>
    obtain ⟨c, hdc, helig, hh⟩ :=
      lookupKV_scan_some rules gitIg disk p h hnd hscan
    have hmemdisk : (p, c) ∈ disk := lookupKV_mem hdc
    have hbp : isBinaryContent c = false :=
      scanEligible_not_binary rules gitIg p c helig
    have hwp : pyStripEmpty c = false := hws (p, c) hmemdisk helig
    have hpp : p ≠ [] := hnp (p, c) hmemdisk
    by_cases hS : lookupKV p (getDbState db) = some h
    · have hpTU : p ∉ ((scanDiskHashes rules gitIg disk).filter
          (fun ph => !(lookupKV ph.1 (getDbState db) == some ph.2))).map
            Prod.fst := by
        intro hmem
        obtain ⟨ph, hmem2, he2⟩ := List.mem_map.1 hmem
        obtain ⟨hmemD, hpred⟩ := List.mem_filter.1 hmem2
        have hl2 : lookupKV ph.1 (scanDiskHashes rules gitIg disk) =
            some ph.2 := lookupKV_eq_of_mem_nodup hndD hmemD
        rw [he2, hscan] at hl2
        injection hl2 with hl2
        rw [he2, ← hl2] at hpred
        simp only [Bool.not_eq_true', beq_eq_false_iff_ne, ne_eq] at hpred
        exact hpred hS
      have hpTD : p ∉ ((getDbState db).filter
          (fun ps => lookupKV ps.1 (scanDiskHashes rules gitIg disk) ==
            none)).map Prod.fst := by
        intro hmem
        obtain ⟨ph, hmem2, he2⟩ := List.mem_map.1 hmem
        obtain ⟨hmemS, hpred⟩ := List.mem_filter.1 hmem2
        rw [he2] at hpred
        simp only [beq_iff_eq] at hpred
        rw [hpred] at hscan
        exact Option.noConfusion hscan
      rw [foldl_upsert_not_mem disk t p _ _ hpTU,
        foldl_delete_not_mem p _ db hpTD, ← lookupKV_getDbState, hS]
    · have hpTU : p ∈ ((scanDiskHashes rules gitIg disk).filter
          (fun ph => !(lookupKV ph.1 (getDbState db) == some ph.2))).map
            Prod.fst := by
        apply List.mem_map.2
        refine ⟨(p, h), List.mem_filter.2 ⟨lookupKV_mem hscan, ?_⟩, rfl⟩
        simp only [Bool.not_eq_true', beq_eq_false_iff_ne, ne_eq]
        exact hS
      have hTUnd : (((scanDiskHashes rules gitIg disk).filter
          (fun ph => !(lookupKV ph.1 (getDbState db) == some ph.2))).map
            Prod.fst).Nodup :=
        hndD.sublist (List.Sublist.map Prod.fst (List.filter_sublist _))
      rw [foldl_upsert_mem disk t p c hdc hbp hwp hpp _ _ hTUnd hpTU, hh]
  | none =>
    have hpTU : p ∉ ((scanDiskHashes rules gitIg disk).filter
        (fun ph => !(lookupKV ph.1 (getDbState db) == some ph.2))).map
          Prod.fst := by
      intro hmem
      obtain ⟨ph, hmem2, he2⟩ := List.mem_map.1 hmem
      obtain ⟨hmemD, _⟩ := List.mem_filter.1 hmem2
      obtain ⟨v, hv⟩ := exists_lookupKV_of_mem_keys
        (List.mem_map.2 ⟨ph, hmemD, he2⟩)
      rw [hscan] at hv
      exact Option.noConfusion hv
    rw [foldl_upsert_not_mem disk t p _ _ hpTU]
    by_cases hmemTD : p ∈ ((getDbState db).filter
        (fun ps => lookupKV ps.1 (scanDiskHashes rules gitIg disk) ==
          none)).map Prod.fst
    · exact foldl_delete_mem p _ db hmemTD
    · rw [foldl_delete_not_mem p _ db hmemTD]
      cases ho : dbStateAt p db with
      | none => rfl
      | some s =>
        exfalso
        have hSs : lookupKV p (getDbState db) = some s := by
          rw [lookupKV_getDbState]
          exact ho
        apply hmemTD
        apply List.mem_map.2
        refine ⟨(p, s), List.mem_filter.2 ⟨lookupKV_mem hSs, ?_⟩, rfl⟩
        simp only [beq_iff_eq]
        exact hscan

/-- C2 counterexample: one on-disk file `a.txt` whose content is a lone
newline (whitespace-only) against an empty backend.  The disk scan
fingerprints it, but `upsert_file` skips whitespace-only content, so
after `sync_project` the stored map still lacks the file: the stored map
does not equal the on-disk map. -/
theorem sync_whitespace_counterexample :
    lookupKV "a.txt".toList
      (getDbState (syncProject emptyRules (fun _ => false)
        [("a.txt".toList, ['\x0a'])] [] 0)) ≠
    lookupKV "a.txt".toList
      (scanDiskHashes emptyRules (fun _ => false)
        [("a.txt".toList, ['\x0a'])]) := by
  decide

/-- Witness for C2's amended theorem: a disk holding `a.py` with real
content, against a backend holding a stale chunk for `a.py` and a chunk
for the vanished `gone.py`; after `sync_project` the stored map agrees
with the disk map on both paths. -/
theorem sync_project_converges_witness :
    lookupKV "a.py".toList
      (getDbState (syncProject emptyRules (fun _ => false)
        [("a.py".toList, "x = 1".toList)]
        [{ chunkId := ("a.py".toList, 0), text := "stale".toList,
           meta := { path := "a.py".toList, hash := "old".toList,
                     chunkIndex := 0, totalChunks := 1, isWholeFile := true,
                     lastModified := 1 } },
         { chunkId := ("gone.py".toList, 0), text := "g".toList,
           meta := { path := "gone.py".toList, hash := "gh".toList,
                     chunkIndex := 0, totalChunks := 1, isWholeFile := true,
                     lastModified := 1 } }] 0)) =
    lookupKV "a.py".toList
      (scanDiskHashes emptyRules (fun _ => false)
        [("a.py".toList, "x = 1".toList)]) ∧
    lookupKV "gone.py".toList
      (getDbState (syncProject emptyRules (fun _ => false)
        [("a.py".toList, "x = 1".toList)]
        [{ chunkId := ("a.py".toList, 0), text := "stale".toList,
           meta := { path := "a.py".toList, hash := "old".toList,
                     chunkIndex := 0, totalChunks := 1, isWholeFile := true,
                     lastModified := 1 } },
         { chunkId := ("gone.py".toList, 0), text := "g".toList,
           meta := { path := "gone.py".toList, hash := "gh".toList,
                     chunkIndex := 0, totalChunks := 1, isWholeFile := true,
                     lastModified := 1 } }] 0)) =
    lookupKV "gone.py".toList
      (scanDiskHashes emptyRules (fun _ => false)
        [("a.py".toList, "x = 1".toList)]) := by
  have h := sync_project_converges emptyRules (fun _ => false)
    [("a.py".toList, "x = 1".toList)]
    [{ chunkId := ("a.py".toList, 0), text := "stale".toList,
       meta := { path := "a.py".toList, hash := "old".toList,
                 chunkIndex := 0, totalChunks := 1, isWholeFile := true,
                 lastModified := 1 } },
     { chunkId := ("gone.py".toList, 0), text := "g".toList,
       meta := { path := "gone.py".toList, hash := "gh".toList,
                 chunkIndex := 0, totalChunks := 1, isWholeFile := true,
                 lastModified := 1 } }] 0
    (by decide) (by decide) (by decide)
  exact ⟨h "a.py".toList, h "gone.py".toList⟩

end CrickCoder
